import Mathlib

/-!
# Consistent hashing ring

A shallow embedding of the Go package `consistent` (files `consistent.go`,
`hash.go`, `opts.go`, `pkg/remote/remote.go`) and theorems about it.

Conventions of the embedding:

* `map[string]struct{}` is a `Finset String`, `map[Hash]string` is a finite map
  (`Finmap`): both are unordered, like Go maps.
* `[]Hash` is a `List Hash`; the capacity of its backing array is not part of
  the list and is passed to the one place that reads it (`updateHashes`).
* A method with a pointer receiver that mutates the ring returns the new ring.
* A run-time panic (index out of range, integer division by zero) is a `Fault`
  in `Except`.
* The mutex is not modelled: every operation is one atomic step.
-/

/-- The Go type `Hash` (a `uint32`). Hashes are only compared, never used in
arithmetic, so they are kept as natural numbers. -/
abbrev Hash := Nat

/-- The Go interface `Hasher`, for a hasher without state: a function from keys to hashes. -/
abbrev Hasher := String → Hash

/-- The Go map type `map[Hash]string`. -/
abbrev RingMap := Finmap (fun _ : Hash => String)

namespace remote

/-- The type `EventType` of `pkg/remote/remote.go` (a Go `int`). -/
abbrev EventType := Int

/-- The constant `EventJoin` (`iota` = 0). -/
def EventJoin : EventType := 0

/-- The constant `EventLeave` (`iota` = 1). -/
def EventLeave : EventType := 1

/-- The struct `Event`; `Addr` is the byte string of a `net.IP`. -/
structure Event where
  Typ : EventType
  Name : String
  Addr : List Nat
  Port : Nat

/-- The interface `Remoter`: `EventsCh` is the sequence of events its channel delivers. -/
structure Remoter where
  EventsCh : List Event

end remote

/-- Run-time panics of the Go code. -/
inductive Fault where
  | indexOutOfRange
  | integerDivideByZero
  deriving DecidableEq, Repr

/-- The struct `Consistent` without its mutex. -/
structure Consistent where
  members : Finset String
  ring : RingMap
  hashes : List Hash
  hasher : Hasher
  nReplicas : Int
  remote : Option remote.Remoter

/-- The struct `Snapshot`; `Members` is a `map[string][]Hash`. -/
structure Snapshot where
  Members : Finmap (fun _ : String => List Hash)

namespace Consistent

/-- The sentinel errors of `consistent.go`; a `nil` error is `none : Option Error`. -/
inductive Error where
  | ErrNoSrvs
  | ErrSrvAlreadyExists
  | ErrSrvNotExists
  deriving DecidableEq, Repr

open Error

/-- The constant `defNReplicas`. -/
def defNReplicas : Int := 20

/-- The Go conversion `int(n)` of a `uint` on a 64-bit platform (two's complement). -/
def uintToInt (n : Nat) : Int :=
  if n % 2 ^ 64 < 2 ^ 63 then ((n % 2 ^ 64 : Nat) : Int) else ((n % 2 ^ 64 : Nat) : Int) - 2 ^ 64

/-- Go integer division `a / b`: panics when `b` is zero, otherwise truncates toward zero. -/
def goDiv (a b : Int) : Except Fault Int :=
  if b = 0 then .error .integerDivideByZero else .ok (Int.tdiv a b)

/-- The Go index expression `s[i]` on a slice: panics when `i` is not below `len(s)`. -/
def index (s : List Hash) (i : Nat) : Except Fault Hash :=
  match s[i]? with
  | some x => .ok x
  | none => .error .indexOutOfRange

/-- The Go map read `m[k]`: the zero value `""` when `k` is not a key. -/
def ringAt (m : RingMap) (k : Hash) : String :=
  (m.lookup k).getD ""

/-- The loop of `sort.Search` (Go standard library):
`for i < j { h := int(uint(i+j) >> 1); if !f(h) { i = h + 1 } else { j = h } }; return i`.
The first argument bounds the number of iterations. -/
def sortSearchLoop (f : Nat → Except Fault Bool) : Nat → Nat → Nat → Except Fault Nat
  | 0, i, _ => .ok i
  | fuel + 1, i, j =>
    if i < j then
      match f ((i + j) / 2) with
      | .error e => .error e
      | .ok false => sortSearchLoop f fuel ((i + j) / 2 + 1) j
      | .ok true => sortSearchLoop f fuel i ((i + j) / 2)
    else .ok i

/-- The function `sort.Search(n, f)`: the loop started at `i, j := 0, n`. The interval
`j - i` shrinks in every iteration, so `n` iterations are enough. -/
def sortSearch (n : Nat) (f : Nat → Except Fault Bool) : Except Fault Nat :=
  sortSearchLoop f n 0 n

/-- The function `sort.Slice(c.hashes, less)` with `less` the order `<` on hashes, as
called by `sortHashes`. The ascending arrangement of a list of integers is unique, so
any sorting algorithm gives the same slice; insertion sort is used here. -/
def sortSlice (s : List Hash) : List Hash :=
  s.insertionSort (· ≤ ·)

/-- Method `sortHashes`. -/
def sortHashes (c : Consistent) : Consistent :=
  { c with hashes := sortSlice c.hashes }

/-- Method `srvKey`: `srv + strconv.Itoa(i)`. -/
def srvKey (_c : Consistent) (srv : String) (i : Int) : String :=
  srv ++ toString i

/-- Method `count`. -/
def count (c : Consistent) : Int :=
  (c.members.card : Int)

/-- Method `isRemoteEnabled`. -/
def isRemoteEnabled (c : Consistent) : Bool :=
  c.remote.isSome

/-- The closure passed to `sort.Search` by `search`: `c.hashes[i] > h`. -/
def searchPred (c : Consistent) (h : Hash) (i : Nat) : Except Fault Bool :=
  match index c.hashes i with
  | .error e => .error e
  | .ok x => .ok (decide (x > h))

/-- Method `search`. -/
def search (c : Consistent) (h : Hash) : Except Fault Nat :=
  match sortSearch c.hashes.length (searchPred c h) with
  | .error e => .error e
  | .ok idx => if idx = c.hashes.length then .ok 0 else .ok idx

/-- Method `Get`. The result holds the ring after the call, the returned server and the
returned error. -/
def Get (c : Consistent) (key : String) : Except Fault (Consistent × String × Option Error) :=
  if c.count = 0 then .ok (c, "", some ErrNoSrvs)
  else
    match search c (c.hasher key) with
    | .error e => .error e
    | .ok idx =>
      match index c.hashes idx with
      | .error e => .error e
      | .ok p => .ok (c, ringAt c.ring p, none)

/-- One iteration of the loop of `Add`. -/
def addReplica (srv : String) (c : Consistent) (i : Nat) : Consistent :=
  let hash := c.hasher (c.srvKey srv i)
  { c with hashes := c.hashes ++ [hash], ring := c.ring.insert hash srv }

/-- Method `Add`. The loop `for i := 0; i < c.nReplicas; i++` runs for
`i = 0, ..., nReplicas - 1`, and not at all when `nReplicas <= 0`. -/
def Add (c : Consistent) (srv : String) : Consistent × Option Error :=
  if srv ∈ c.members then (c, some ErrSrvAlreadyExists)
  else
    let c1 := { c with members := insert srv c.members }
    let c2 := (List.range c1.nReplicas.toNat).foldl (addReplica srv) c1
    (c2.sortHashes, none)

/-- The loop `for h := range c.ring { c.hashes = append(c.hashes, h) }` when the keys of
the map are visited in the order `ks`. -/
def appendKeys (c : Consistent) (ks : List Hash) : Consistent :=
  ks.foldl (fun c h => { c with hashes := c.hashes ++ [h] }) c

/-- The loop over `c.ring` followed by `c.sortHashes()`, the tail of `updateHashes`. Go
visits the keys of a map in an unspecified order: the definition is a function of the
unordered key set, with the proof that every visiting order gives the same ring. -/
def appendRingKeysSorted (c : Consistent) : Consistent :=
  Quot.liftOn c.ring.keys.val (fun ks => (c.appendKeys ks).sortHashes) (by
    intro a b hab
    have key : ∀ (ks : List Hash) (d : Consistent),
        d.appendKeys ks = { d with hashes := d.hashes ++ ks } := by
      intro ks
      induction ks with
      | nil => intro d; simp [appendKeys]
      | cons k ks ih =>
        intro d
        have h2 := ih { d with hashes := d.hashes ++ [k] }
        simp only [appendKeys, List.foldl_cons] at h2 ⊢
        rw [h2]
        simp
    have hperm : List.Perm (c.hashes ++ a) (c.hashes ++ b) := List.Perm.append_left _ hab
    simp only [key, sortHashes, sortSlice]
    congr 1
    exact List.eq_of_perm_of_sorted
      (((List.perm_insertionSort _ _).trans hperm).trans (List.perm_insertionSort _ _).symm)
      (List.sorted_insertionSort _ _) (List.sorted_insertionSort _ _))

/-- Method `updateHashes`. The argument `cap` is `cap(c.hashes)`, the capacity of the
backing array of the slice when the method is entered; it depends on the allocation
history of the Go runtime and not on the contents of the ring. Both `c.hashes[:0]` and
`nil` are the empty list. -/
def updateHashes (cap : Nat) (c : Consistent) : Except Fault Consistent :=
  let c1 := { c with hashes := [] }
  match goDiv (cap : Int) c1.nReplicas with
  | .error e => .error e
  | .ok q =>
    let c2 := if q > 4 * c1.count then { c1 with hashes := [] } else c1
    .ok c2.appendRingKeysSorted

/-- One iteration of the loop of `Remove`. -/
def removeReplica (srv : String) (c : Consistent) (i : Nat) : Consistent :=
  { c with ring := c.ring.erase (c.hasher (c.srvKey srv i)) }

/-- Method `Remove`; `cap` is the capacity of `c.hashes` at the call (see `updateHashes`). -/
def Remove (cap : Nat) (c : Consistent) (srv : String) : Except Fault (Consistent × Option Error) :=
  if srv ∉ c.members then .ok (c, some ErrSrvNotExists)
  else
    let c1 := { c with members := c.members.erase srv }
    let c2 := (List.range c1.nReplicas.toNat).foldl (removeReplica srv) c1
    match updateHashes cap c2 with
    | .error e => .error e
    | .ok c3 => .ok (c3, none)

/-- The Go type `opt`: a function that configures the ring under construction. -/
abbrev opt := Consistent → Consistent

/-- Function `WithReplicas(n uint)`. -/
def WithReplicas (n : Nat) : opt :=
  fun c => { c with nReplicas := uintToInt n }

/-- Function `WithHasher`. -/
def WithHasher (h : Hasher) : opt :=
  fun c => { c with hasher := h }

/-- Function `WithRemote`. -/
def WithRemote (r : remote.Remoter) : opt :=
  fun c => { c with remote := some r }

/-- Function `NewConsistent`. The default hasher `NewCRCHasher()` wraps
`crc32.ChecksumIEEE` of the Go standard library, taken here as the parameter `crc`. When a
remote is set the constructor only starts the goroutine of `handleRemote`; the ring it
returns has not yet received any event. -/
def NewConsistent (crc : Hasher) (opts : List opt) : Consistent :=
  opts.foldl (fun r o => o r)
    { members := ∅, ring := ∅, hashes := [], hasher := crc, nReplicas := defNReplicas,
      remote := none }

/-- The options a caller outside the package can build: the type `opt` is not exported,
so every option is made by `WithReplicas`, `WithHasher` or `WithRemote`. -/
inductive IsOpt : opt → Prop where
  | replicas (n : Nat) : IsOpt (WithReplicas n)
  | hasher (h : Hasher) : IsOpt (WithHasher h)
  | remote (r : remote.Remoter) : IsOpt (WithRemote r)

/-- Ring states reachable from `NewConsistent` by `Add` and `Remove` calls that return
(with or without an error). -/
inductive Reachable : Consistent → Prop where
  | new (crc : Hasher) (opts : List opt) (h : ∀ o ∈ opts, IsOpt o) :
      Reachable (NewConsistent crc opts)
  | add (c : Consistent) (srv : String) : Reachable c → Reachable (c.Add srv).1
  | remove (c : Consistent) (cap : Nat) (srv : String) (r : Consistent × Option Error) :
      Reachable c → c.Remove cap srv = .ok r → Reachable r.1

/-- Ring states reached from the ring `c` by `Add` and `Remove` calls that return, none
of which is `Add(s)`. -/
inductive ReachableWithoutAdd (s : String) : Consistent → Consistent → Prop where
  | refl (c : Consistent) : ReachableWithoutAdd s c c
  | add (c d : Consistent) (srv : String) :
      ReachableWithoutAdd s c d → srv ≠ s → ReachableWithoutAdd s c (d.Add srv).1
  | remove (c d : Consistent) (cap : Nat) (srv : String) (r : Consistent × Option Error) :
      ReachableWithoutAdd s c d → d.Remove cap srv = .ok r → ReachableWithoutAdd s c r.1

/-- The Go map read `members[m]` on a `map[string][]Hash`: the nil slice when `m` is not a
key. -/
def membersAt (members : Finmap (fun _ : String => List Hash)) (m : String) : List Hash :=
  (members.lookup m).getD []

/-- One iteration of the loop of `Snapshot`, for the entry `h, m` of `c.ring`:
`if _, ok := members[m]; !ok { members[m] = []Hash{} }; members[m] = append(members[m], h)`. -/
def snapshotStep (members : Finmap (fun _ : String => List Hash))
    (e : Sigma (fun _ : Hash => String)) : Finmap (fun _ : String => List Hash) :=
  let members1 := if e.2 ∈ members then members else members.insert e.2 []
  members1.insert e.2 (membersAt members1 e.2 ++ [e.1])

/-- Method `Snapshot`. Go visits the entries of `c.ring` in an unspecified order, on which
the order inside the lists of the result depends: `order` is the sequence of entries
`(h, m)` in the order in which this call visits them, an enumeration of `c.ring`. The
result holds the ring after the call and the snapshot. -/
def Snapshot (c : Consistent) (order : List (Sigma (fun _ : Hash => String))) :
    Consistent × Snapshot :=
  (c, { Members := order.foldl snapshotStep ∅ })

/-- The positions of the entries of `order` whose server is `m`, in the order of `order`. -/
def positionsIn (order : List (Sigma (fun _ : Hash => String))) (m : String) : List Hash :=
  (order.filter (fun e => e.2 = m)).map (fun e => e.1)

/-- Two rings with the same member set, mapping, position list, hasher and replica
count; only their remotes may differ. -/
def SameRing (c d : Consistent) : Prop :=
  c.members = d.members ∧ c.ring = d.ring ∧ c.hashes = d.hashes ∧ c.hasher = d.hasher ∧
    c.nReplicas = d.nReplicas

/-- The body of the loop of `handleRemote` for one event: `Add` on `EventJoin`, `Remove` on
`EventLeave`, and a logged warning otherwise. The error that `Add` or `Remove` returns is
only logged (`handleRcvErr`). A panic of `Remove` ends the goroutine. -/
def handleEvent (cap : Nat) (c : Consistent) (e : remote.Event) : Except Fault Consistent :=
  if e.Typ = remote.EventJoin then .ok (c.Add e.Name).1
  else if e.Typ = remote.EventLeave then
    match c.Remove cap e.Name with
    | .error f => .error f
    | .ok r => .ok r.1
  else .ok c

/-- Method `handleRemote` as a step function: `eventsCh` is the sequence of events that
`c.remote.EventsCh()` delivers, handled in delivery order. The capacity `cap` of the
slice does not influence `Remove` (theorem `Remove_cap_irrelevant`), so one value stands
for the capacity at every call. -/
def handleRemote (cap : Nat) (c : Consistent) : List remote.Event → Except Fault Consistent
  | [] => .ok c
  | e :: eventsCh =>
    match handleEvent cap c e with
    | .error f => .error f
    | .ok c1 => handleRemote cap c1 eventsCh

/-- The call `Get(key)` made `n + 1` times in a row on the ring, each on the ring the
previous call left; the result is that of the last call. -/
def GetRepeated (c : Consistent) (key : String) :
    Nat → Except Fault (Consistent × String × Option Error)
  | 0 => c.Get key
  | n + 1 =>
    match c.Get key with
    | .error f => .error f
    | .ok r => GetRepeated r.1 key n

/-- What a caller sees of a `Get` call: the server and the error, or the panic. -/
def getResult (c : Consistent) (key : String) : Except Fault (String × Option Error) :=
  match c.Get key with
  | .error f => .error f
  | .ok r => .ok r.2

/-- The ring that `Remove(srv)` leaves. When `Remove` panics (in `updateHashes`, on the
division) the ring is as the statements before the panic left it: the member and its
mapping entries are deleted and the position list is cut to `c.hashes[:0]`. -/
def afterRemove (cap : Nat) (c : Consistent) (srv : String) : Consistent :=
  match c.Remove cap srv with
  | .error _ =>
    { (List.range c.nReplicas.toNat).foldl (removeReplica srv)
        { c with members := c.members.erase srv } with hashes := [] }
  | .ok r => r.1

/-- The positions `hash(srv + strconv.Itoa(i))`, `0 <= i < nReplicas`, in the order in
which the loops of `Add` and `Remove` compute them. -/
def positions (c : Consistent) (srv : String) : List Hash :=
  (List.range c.nReplicas.toNat).map (fun i : Nat => c.hasher (c.srvKey srv i))

/-- The clockwise successor of the hash `h` among the positions `hs`, in the words of the
specification: the smallest position strictly greater than `h`, or the smallest position
of all when no position is strictly greater than `h`. -/
def IsSuccessor (hs : List Hash) (h p : Hash) : Prop :=
  p ∈ hs ∧ ((h < p ∧ ∀ q ∈ hs, h < q → p ≤ q) ∨ ((∀ q ∈ hs, q ≤ h) ∧ ∀ q ∈ hs, p ≤ q))

/-- The servers `srvs` added in order to `c`, as `newTestC` of the test file does. -/
def addAll (c : Consistent) (srvs : List String) : Consistent :=
  srvs.foldl (fun c s => (c.Add s).1) c

/-- A hasher without state given by a table; keys outside the table hash to 0. -/
def tableHasher (t : List (String × Hash)) : Hasher :=
  fun key => (t.lookup key).getD 0

/-- A hasher for the examples: the virtual nodes of `a` and `b` (one replica each)
collide at position 10, the one of `c` is at 30 and the key `k` hashes to 5. -/
def exampleHasher : Hasher :=
  tableHasher [("a0", 10), ("b0", 10), ("c0", 30), ("k", 5)]

/-- The ring `NewConsistent(WithHasher(exampleHasher), WithReplicas(1))` with no server. -/
def exampleEmpty : Consistent :=
  NewConsistent exampleHasher [WithReplicas 1]

/-- The example ring after `Add("a")`. -/
def exampleA : Consistent :=
  addAll exampleEmpty ["a"]

/-- The example ring after `Add("a")`, `Add("c")`: no collision. -/
def exampleAC : Consistent :=
  addAll exampleEmpty ["a", "c"]

/-- The example ring after `Add("a")`, `Add("b")`, `Add("c")`: `a` and `b` collide. -/
def exampleABC : Consistent :=
  addAll exampleEmpty ["a", "b", "c"]

/-- A hasher without state for the examples with many keys: a thousand times the
length of the key plus the sum of its character codes, as a `uint32`. -/
def lengthSumHasher : Hasher :=
  fun key => (key.length * 1000 + (key.data.map Char.toNat).sum) % 2 ^ 32

/-- The ring `NewConsistent(WithHasher(lengthSumHasher), WithReplicas(11))` after
`Add("a")`, `Add("a1")`: the keys `"a" + "10"` and `"a1" + "0"` are the same string. -/
def examplePrefix : Consistent :=
  addAll (NewConsistent lengthSumHasher [WithReplicas 11]) ["a", "a1"]

/-- The example ring after `Add("a")`, `Add("b")`, `Remove("b")`, `Add("c")`: the member
`a` has lost its only position 10 to the removal of `b`, and `c` owns position 30. -/
def exampleGap : Consistent :=
  ((afterRemove 0 (addAll exampleEmpty ["a", "b"]) "b").Add "c").1

/-- What holds of every reachable ring: the position list is sorted, it has the same
elements as the key set of the mapping, every entry of the mapping belongs to a member
and sits at one of the positions of that member, and without replicas there is no
position. -/
structure Inv (c : Consistent) : Prop where
  sorted : c.hashes.Sorted (· ≤ ·)
  mirror : ∀ p, p ∈ c.hashes ↔ p ∈ c.ring
  owner : ∀ p s, c.ring.lookup p = some s → s ∈ c.members ∧ p ∈ c.positions s
  replicas : c.nReplicas ≤ 0 → c.hashes = []

/-! ## The loops of `Add`, `Remove` and `updateHashes` -/

theorem appendKeys_eq (ks : List Hash) (d : Consistent) :
    d.appendKeys ks = { d with hashes := d.hashes ++ ks } := by
  induction ks generalizing d with
  | nil => simp [appendKeys]
  | cons k ks ih =>
    have h2 := ih { d with hashes := d.hashes ++ [k] }
    simp only [appendKeys, List.foldl_cons] at h2 ⊢
    rw [h2]
    simp

theorem addLoop_eq (srv : String) (is : List Nat) (c : Consistent) :
    is.foldl (addReplica srv) c =
      { c with
        hashes := c.hashes ++ is.map (fun i : Nat => c.hasher (c.srvKey srv i)),
        ring := (is.map (fun i : Nat => c.hasher (c.srvKey srv i))).foldl
          (fun m p => m.insert p srv) c.ring } := by
  induction is generalizing c with
  | nil => simp
  | cons i is ih =>
    rw [List.foldl_cons, ih]
    simp [addReplica, srvKey]

theorem removeLoop_eq (srv : String) (is : List Nat) (c : Consistent) :
    is.foldl (removeReplica srv) c =
      { c with
        ring := (is.map (fun i : Nat => c.hasher (c.srvKey srv i))).foldl
          (fun m p => m.erase p) c.ring } := by
  induction is generalizing c with
  | nil => simp
  | cons i is ih =>
    rw [List.foldl_cons, ih]
    simp [removeReplica, srvKey]

theorem lookup_foldl_insert (srv : String) (ps : List Hash) (m : RingMap) (p : Hash) :
    (ps.foldl (fun m p => m.insert p srv) m).lookup p =
      if p ∈ ps then some srv else m.lookup p := by
  induction ps generalizing m with
  | nil => simp
  | cons q ps ih =>
    rw [List.foldl_cons, ih]
    by_cases hp : p ∈ ps
    · simp [hp]
    · by_cases hq : p = q
      · subst hq
        simp [hp]
      · simp [hp, hq, Finmap.lookup_insert_of_ne]

theorem lookup_foldl_erase (ps : List Hash) (m : RingMap) (p : Hash) :
    (ps.foldl (fun m p => m.erase p) m).lookup p =
      if p ∈ ps then none else m.lookup p := by
  induction ps generalizing m with
  | nil => simp
  | cons q ps ih =>
    rw [List.foldl_cons, ih]
    by_cases hp : p ∈ ps
    · simp [hp]
    · by_cases hq : p = q
      · subst hq
        simp [hp]
      · simp [hp, hq, Finmap.lookup_erase_ne]

theorem mem_foldl_insert (srv : String) (ps : List Hash) (m : RingMap) (p : Hash) :
    p ∈ ps.foldl (fun m p => m.insert p srv) m ↔ p ∈ ps ∨ p ∈ m := by
  rw [← Finmap.lookup_isSome, lookup_foldl_insert]
  by_cases hp : p ∈ ps
  · simp [hp]
  · simp [hp, Finmap.lookup_isSome]

theorem mem_foldl_erase (ps : List Hash) (m : RingMap) (p : Hash) :
    p ∈ ps.foldl (fun m p => m.erase p) m ↔ p ∉ ps ∧ p ∈ m := by
  rw [← Finmap.lookup_isSome, lookup_foldl_erase]
  by_cases hp : p ∈ ps
  · simp [hp]
  · simp [hp, Finmap.lookup_isSome]

/-! ## The sorted slice -/

theorem sortSlice_sorted (s : List Hash) : (sortSlice s).Sorted (· ≤ ·) :=
  List.sorted_insertionSort _ s

theorem sortSlice_perm (s : List Hash) : (sortSlice s).Perm s :=
  List.perm_insertionSort _ s

theorem mem_sortSlice (s : List Hash) (p : Hash) : p ∈ sortSlice s ↔ p ∈ s :=
  (sortSlice_perm s).mem_iff

theorem length_sortSlice (s : List Hash) : (sortSlice s).length = s.length :=
  (sortSlice_perm s).length_eq

theorem sortSlice_nodup (s : List Hash) (h : s.Nodup) : (sortSlice s).Nodup :=
  (sortSlice_perm s).nodup_iff.mpr h

/-! ## What each method computes -/

theorem Add_of_mem (c : Consistent) (srv : String) (h : srv ∈ c.members) :
    c.Add srv = (c, some ErrSrvAlreadyExists) := by
  simp [Add, h]

theorem Add_of_not_mem (c : Consistent) (srv : String) (h : srv ∉ c.members) :
    c.Add srv =
      ({ c with
          members := insert srv c.members,
          hashes := sortSlice (c.hashes ++ c.positions srv),
          ring := (c.positions srv).foldl (fun m p => m.insert p srv) c.ring }, none) := by
  simp [Add, h, addLoop_eq, sortHashes, positions, srvKey]

theorem appendRingKeysSorted_eq (c : Consistent) :
    ∃ ks : List Hash, (ks : Multiset Hash) = c.ring.keys.val ∧
      c.appendRingKeysSorted = { c with hashes := sortSlice (c.hashes ++ ks) } := by
  obtain ⟨ks, hks⟩ := Quot.exists_rep c.ring.keys.val
  refine ⟨ks, hks, ?_⟩
  unfold appendRingKeysSorted
  rw [← hks]
  show (c.appendKeys ks).sortHashes = _
  rw [appendKeys_eq]
  rfl

theorem updateHashes_zero (cap : Nat) (c : Consistent) (h : c.nReplicas = 0) :
    c.updateHashes cap = .error .integerDivideByZero := by
  simp [updateHashes, goDiv, h]

theorem updateHashes_ok (cap : Nat) (c : Consistent) (h : c.nReplicas ≠ 0) :
    ∃ ks : List Hash, (ks : Multiset Hash) = c.ring.keys.val ∧
      c.updateHashes cap = .ok { c with hashes := sortSlice ks } := by
  by_cases hq : Int.tdiv (cap : Int) c.nReplicas > 4 * count { c with hashes := [] }
  · obtain ⟨ks, hks, he⟩ := appendRingKeysSorted_eq { c with hashes := [] }
    refine ⟨ks, hks, ?_⟩
    simp only [updateHashes, goDiv, h, if_false, hq, if_true]
    rw [he]
    simp
  · obtain ⟨ks, hks, he⟩ := appendRingKeysSorted_eq { c with hashes := [] }
    refine ⟨ks, hks, ?_⟩
    simp only [updateHashes, goDiv, h, if_false, hq]
    rw [he]
    simp

theorem Remove_of_not_mem (cap : Nat) (c : Consistent) (srv : String) (h : srv ∉ c.members) :
    c.Remove cap srv = .ok (c, some ErrSrvNotExists) := by
  simp [Remove, h]

theorem Remove_zero (cap : Nat) (c : Consistent) (srv : String) (h : srv ∈ c.members)
    (h0 : c.nReplicas = 0) : c.Remove cap srv = .error .integerDivideByZero := by
  simp [Remove, h, removeLoop_eq, updateHashes_zero, h0]

theorem Remove_of_mem (cap : Nat) (c : Consistent) (srv : String) (h : srv ∈ c.members)
    (h0 : c.nReplicas ≠ 0) :
    ∃ ks : List Hash,
      (ks : Multiset Hash) =
        ((c.positions srv).foldl (fun m p => m.erase p) c.ring).keys.val ∧
      c.Remove cap srv =
        .ok ({ c with
                members := c.members.erase srv,
                ring := (c.positions srv).foldl (fun m p => m.erase p) c.ring,
                hashes := sortSlice ks }, none) := by
  obtain ⟨ks, hks, he⟩ := updateHashes_ok cap
    { c with
      members := c.members.erase srv,
      ring := (c.positions srv).foldl (fun m p => m.erase p) c.ring } h0
  refine ⟨ks, hks, ?_⟩
  simp only [Remove, h, not_true_eq_false, if_false, removeLoop_eq]
  simp only [positions, srvKey] at he ⊢
  rw [he]

/-! ## Binary search -/

theorem sortSearchLoop_spec (f : Nat → Except Fault Bool) (g : Nat → Bool) (n : Nat)
    (hf : ∀ k, k < n → f k = .ok (g k))
    (hmono : ∀ a b, a ≤ b → b < n → g a = true → g b = true) :
    ∀ fuel i j, i ≤ j → j ≤ n → j - i ≤ fuel →
      (∀ k, k < i → g k = false) → (∀ k, j ≤ k → k < n → g k = true) →
      ∃ r, sortSearchLoop f fuel i j = .ok r ∧ r ≤ n ∧
        (∀ k, k < r → g k = false) ∧ (∀ k, r ≤ k → k < n → g k = true) := by
  intro fuel
  induction fuel with
  | zero =>
    intro i j hij hjn hfuel hlo hhi
    have hji : j = i := by omega
    subst hji
    exact ⟨j, rfl, hjn, hlo, hhi⟩
  | succ fuel ih =>
    intro i j hij hjn hfuel hlo hhi
    by_cases hlt : i < j
    · have hmid1 : i ≤ (i + j) / 2 := by omega
      have hmid2 : (i + j) / 2 < j := by omega
      have hmidn : (i + j) / 2 < n := by omega
      cases hg : g ((i + j) / 2) with
      | false =>
        have hlo2 : ∀ k, k < (i + j) / 2 + 1 → g k = false := by
          intro k hk
          cases hgk : g k with
          | false => rfl
          | true =>
            have := hmono k ((i + j) / 2) (by omega) hmidn hgk
            rw [hg] at this
            exact absurd this (by simp)
        obtain ⟨r, hr, hrest⟩ := ih ((i + j) / 2 + 1) j (by omega) hjn (by omega) hlo2 hhi
        refine ⟨r, ?_, hrest⟩
        simp only [sortSearchLoop, hlt, if_true, hf _ hmidn, hg]
        exact hr
      | true =>
        have hhi2 : ∀ k, (i + j) / 2 ≤ k → k < n → g k = true := by
          intro k hk hkn
          exact hmono ((i + j) / 2) k hk hkn hg
        obtain ⟨r, hr, hrest⟩ := ih i ((i + j) / 2) hmid1 (by omega) (by omega) hlo hhi2
        refine ⟨r, ?_, hrest⟩
        simp only [sortSearchLoop, hlt, if_true, hf _ hmidn, hg]
        exact hr
    · have hji : j = i := by omega
      subst hji
      refine ⟨j, ?_, hjn, hlo, hhi⟩
      simp [sortSearchLoop]

/-- The bound on the iterations of `sort.Search` is never reached before the loop ends:
once the fuel is at least `j - i`, more fuel does not change the result, whatever the
predicate does. -/
theorem sortSearchLoop_fuel (f : Nat → Except Fault Bool) :
    ∀ fuel i j, j - i ≤ fuel → ∀ more,
      sortSearchLoop f (fuel + more) i j = sortSearchLoop f fuel i j := by
  intro fuel
  induction fuel with
  | zero =>
    intro i j hij more
    have hji : ¬ i < j := by omega
    cases more with
    | zero => rfl
    | succ more => simp [sortSearchLoop, hji]
  | succ fuel ih =>
    intro i j hij more
    have hre : fuel + 1 + more = (fuel + more) + 1 := by omega
    rw [hre]
    by_cases hlt : i < j
    · simp only [sortSearchLoop, hlt, if_true]
      rw [ih ((i + j) / 2 + 1) j (by omega) more, ih i ((i + j) / 2) (by omega) more]
    · simp [sortSearchLoop, hlt]

theorem index_of_lt (s : List Hash) (i : Nat) (h : i < s.length) :
    index s i = .ok (s.get ⟨i, h⟩) := by
  simp [index, List.getElem?_eq_getElem h]

theorem index_of_ge (s : List Hash) (i : Nat) (h : s.length ≤ i) :
    index s i = .error .indexOutOfRange := by
  simp [index, List.getElem?_eq_none h]

theorem sorted_get_le (s : List Hash) (hs : s.Sorted (· ≤ ·)) (a b : Nat) (hab : a ≤ b)
    (hb : b < s.length) : s.get ⟨a, by omega⟩ ≤ s.get ⟨b, hb⟩ :=
  hs.rel_get_of_le (a := ⟨a, by omega⟩) (b := ⟨b, hb⟩) hab

theorem getD_of_lt (s : List Hash) (k : Nat) (hk : k < s.length) :
    s.getD k 0 = s.get ⟨k, hk⟩ := by
  simp [List.getD_eq_getElem?_getD, List.getElem?_eq_getElem hk]

/-- On a sorted slice `sort.Search` returns, without a fault, the least index whose
position is strictly greater than `h`, or the length when there is none. -/
theorem sortSearch_hashes (c : Consistent) (h : Hash) (hs : c.hashes.Sorted (· ≤ ·)) :
    ∃ r, sortSearch c.hashes.length (searchPred c h) = .ok r ∧ r ≤ c.hashes.length ∧
      (∀ k (hk : k < c.hashes.length), k < r → c.hashes.get ⟨k, hk⟩ ≤ h) ∧
      (∀ k (hk : k < c.hashes.length), r ≤ k → h < c.hashes.get ⟨k, hk⟩) := by
  have hf : ∀ k, k < c.hashes.length →
      searchPred c h k = .ok (decide (c.hashes.getD k 0 > h)) := by
    intro k hk
    rw [getD_of_lt _ _ hk]
    simp [searchPred, index_of_lt _ _ hk]
  have hmono : ∀ a b, a ≤ b → b < c.hashes.length →
      decide (c.hashes.getD a 0 > h) = true → decide (c.hashes.getD b 0 > h) = true := by
    intro a b hab hb ha
    have hle := sorted_get_le c.hashes hs a b hab hb
    have ha2 : a < c.hashes.length := by omega
    rw [getD_of_lt _ _ ha2, decide_eq_true_eq] at ha
    rw [getD_of_lt _ _ hb, decide_eq_true_eq]
    exact lt_of_lt_of_le ha hle
  obtain ⟨r, hr, hrn, hlo, hhi⟩ := sortSearchLoop_spec (searchPred c h)
    (fun k => decide (c.hashes.getD k 0 > h)) c.hashes.length hf hmono
    c.hashes.length 0 c.hashes.length (Nat.zero_le _) le_rfl (by omega)
    (by intro k hk; omega) (by intro k hk hk2; omega)
  refine ⟨r, hr, hrn, ?_, ?_⟩
  · intro k hk hkr
    have := hlo k hkr
    rw [getD_of_lt _ _ hk, decide_eq_false_iff_not, not_lt] at this
    exact this
  · intro k hk hrk
    have := hhi k hrk hk
    rw [getD_of_lt _ _ hk, decide_eq_true_eq] at this
    exact this

/-! ## The clockwise successor and `Get` -/

theorem IsSuccessor.unique {hs : List Hash} {h p q : Hash} (hp : IsSuccessor hs h p)
    (hq : IsSuccessor hs h q) : p = q := by
  obtain ⟨hpm, hp⟩ := hp
  obtain ⟨hqm, hq⟩ := hq
  rcases hp with ⟨hp1, hp2⟩ | ⟨hp1, hp2⟩ <;> rcases hq with ⟨hq1, hq2⟩ | ⟨hq1, hq2⟩
  · exact le_antisymm (hp2 q hqm hq1) (hq2 p hpm hp1)
  · exact absurd (hq1 p hpm) (not_le.mpr hp1)
  · exact absurd (hp1 q hqm) (not_le.mpr hq1)
  · exact le_antisymm (hp2 q hqm) (hq2 p hpm)

theorem IsSuccessor.of_subset {hs hs2 : List Hash} {h p : Hash} (hsub : ∀ q ∈ hs2, q ∈ hs)
    (hpm : p ∈ hs2) (hp : IsSuccessor hs h p) : IsSuccessor hs2 h p := by
  obtain ⟨_, hp⟩ := hp
  refine ⟨hpm, ?_⟩
  rcases hp with ⟨hp1, hp2⟩ | ⟨hp1, hp2⟩
  · exact Or.inl ⟨hp1, fun q hq hlt => hp2 q (hsub q hq) hlt⟩
  · exact Or.inr ⟨fun q hq => hp1 q (hsub q hq), fun q hq => hp2 q (hsub q hq)⟩

theorem count_eq_zero_iff (c : Consistent) : c.count = 0 ↔ c.members = ∅ := by
  simp [count]

/-- With no member `Get` returns `ErrNoSrvs`, the empty string and the ring as it was. -/
theorem Get_of_empty (c : Consistent) (key : String) (h : c.members = ∅) :
    c.Get key = .ok (c, "", some ErrNoSrvs) := by
  simp [Get, (count_eq_zero_iff c).mpr h]

/-- With a member, a sorted and non-empty position list, `Get` resolves the key through
the clockwise successor of its hash. -/
theorem Get_of_sorted (c : Consistent) (key : String) (hs : c.hashes.Sorted (· ≤ ·))
    (hm : c.members ≠ ∅) (hh : c.hashes ≠ []) :
    ∃ p, IsSuccessor c.hashes (c.hasher key) p ∧
      c.Get key = .ok (c, ringAt c.ring p, none) := by
  have hcount : ¬ c.count = 0 := fun h0 => hm ((count_eq_zero_iff c).mp h0)
  have hlen : 0 < c.hashes.length := List.length_pos.mpr hh
  obtain ⟨r, hr, hrn, hlo, hhi⟩ := sortSearch_hashes c (c.hasher key) hs
  by_cases hrl : r = c.hashes.length
  · refine ⟨c.hashes.get ⟨0, hlen⟩, ⟨List.get_mem _ _ _, Or.inr ⟨?_, ?_⟩⟩, ?_⟩
    · intro q hq
      obtain ⟨k, hk⟩ := List.mem_iff_get.mp hq
      rw [← hk]
      exact hlo k.1 k.2 (by rw [hrl]; exact k.2)
    · intro q hq
      obtain ⟨k, hk⟩ := List.mem_iff_get.mp hq
      rw [← hk]
      exact sorted_get_le c.hashes hs 0 k.1 (Nat.zero_le _) k.2
    · simp [Get, hcount, search, hr, hrl, index_of_lt _ _ hlen]
  · have hrlt : r < c.hashes.length := by omega
    refine ⟨c.hashes.get ⟨r, hrlt⟩, ⟨List.get_mem _ _ _, Or.inl ⟨?_, ?_⟩⟩, ?_⟩
    · exact hhi r hrlt le_rfl
    · intro q hq hlt
      obtain ⟨k, hk⟩ := List.mem_iff_get.mp hq
      rw [← hk] at hlt ⊢
      by_cases hkr : k.1 < r
      · exact absurd hlt (not_lt.mpr (hlo k.1 k.2 hkr))
      · exact sorted_get_le c.hashes hs r k.1 (by omega) k.2
    · simp [Get, hcount, search, hr, hrl, index_of_lt _ _ hrlt]

/-- With a member and an empty position list `Get` faults on `c.hashes[idx]`. -/
theorem Get_of_no_hashes (c : Consistent) (key : String) (hm : c.members ≠ ∅)
    (hh : c.hashes = []) : c.Get key = .error .indexOutOfRange := by
  have hcount : ¬ c.count = 0 := fun h0 => hm ((count_eq_zero_iff c).mp h0)
  simp [Get, hcount, search, sortSearch, sortSearchLoop, hh, index]

/-! ## Invariants of the reachable ring states -/

theorem foldl_opts_fields (opts : List opt) (h : ∀ o ∈ opts, IsOpt o) (c : Consistent) :
    (opts.foldl (fun r o => o r) c).members = c.members ∧
    (opts.foldl (fun r o => o r) c).ring = c.ring ∧
    (opts.foldl (fun r o => o r) c).hashes = c.hashes := by
  induction opts generalizing c with
  | nil => simp
  | cons o opts ih =>
    have ho : IsOpt o := h o (List.mem_cons_self _ _)
    have ih2 := ih (fun o2 ho2 => h o2 (List.mem_cons_of_mem _ ho2)) (o c)
    rw [List.foldl_cons]
    cases ho with
    | replicas n => simpa [WithReplicas] using ih2
    | hasher g => simpa [WithHasher] using ih2
    | remote r => simpa [WithRemote] using ih2

theorem NewConsistent_fields (crc : Hasher) (opts : List opt) (h : ∀ o ∈ opts, IsOpt o) :
    (NewConsistent crc opts).members = ∅ ∧ (NewConsistent crc opts).ring = ∅ ∧
    (NewConsistent crc opts).hashes = [] := by
  simpa [NewConsistent] using foldl_opts_fields opts h
    { members := ∅, ring := ∅, hashes := [], hasher := crc, nReplicas := defNReplicas,
      remote := none }

theorem Inv_of_fresh (c : Consistent) (hm : c.ring = ∅) (hh : c.hashes = []) : Inv c where
  sorted := by simp [hh]
  mirror := by intro p; simp [hh, hm, Finmap.not_mem_empty]
  owner := by intro p s hl; simp [hm, Finmap.lookup_empty] at hl
  replicas := fun _ => hh

theorem positions_eq_nil (c : Consistent) (srv : String) (h : c.nReplicas ≤ 0) :
    c.positions srv = [] := by
  simp [positions, Int.toNat_eq_zero.mpr h]

theorem Inv_Add (c : Consistent) (srv : String) (hi : Inv c) : Inv (c.Add srv).1 := by
  by_cases hm : srv ∈ c.members
  · rw [Add_of_mem c srv hm]
    exact hi
  · rw [Add_of_not_mem c srv hm]
    refine ⟨sortSlice_sorted _, ?_, ?_, ?_⟩
    · intro p
      simp only [mem_sortSlice, List.mem_append, mem_foldl_insert, hi.mirror p]
      tauto
    · intro p s hl
      simp only [lookup_foldl_insert] at hl
      by_cases hp : p ∈ c.positions srv
      · simp only [hp, if_true, Option.some.injEq] at hl
        subst hl
        exact ⟨Finset.mem_insert_self _ _, hp⟩
      · simp only [hp, if_false] at hl
        exact ⟨Finset.mem_insert_of_mem (hi.owner p s hl).1, (hi.owner p s hl).2⟩
    · intro h0
      simp only at h0
      simp [positions_eq_nil c srv h0, hi.replicas h0, sortSlice]

theorem Inv_Remove (cap : Nat) (c : Consistent) (srv : String) (r : Consistent × Option Error)
    (hi : Inv c) (hr : c.Remove cap srv = .ok r) : Inv r.1 := by
  by_cases hm : srv ∈ c.members
  · by_cases h0 : c.nReplicas = 0
    · rw [Remove_zero cap c srv hm h0] at hr
      cases hr
    · obtain ⟨ks, hks, he⟩ := Remove_of_mem cap c srv hm h0
      rw [he] at hr
      cases hr
      have hmem : ∀ p, p ∈ ks ↔ p ∈ (c.positions srv).foldl (fun m p => m.erase p) c.ring := by
        intro p
        rw [← Finmap.mem_keys, ← Finset.mem_val, ← hks]
        rfl
      refine ⟨sortSlice_sorted _, ?_, ?_, ?_⟩
      · intro p
        simp only [mem_sortSlice, hmem]
      · intro p s hl
        simp only [lookup_foldl_erase] at hl
        by_cases hp : p ∈ c.positions srv
        · simp [hp] at hl
        · simp only [hp, if_false] at hl
          obtain ⟨h1, h2⟩ := hi.owner p s hl
          refine ⟨Finset.mem_erase.mpr ⟨?_, h1⟩, h2⟩
          intro hs
          subst hs
          exact hp h2
      · intro hle
        simp only at hle
        have hnil : ks = [] := by
          apply List.eq_nil_iff_forall_not_mem.mpr
          intro p hp
          have h1 := ((mem_foldl_erase _ _ _).mp ((hmem p).mp hp)).2
          have h2 := (hi.mirror p).mpr h1
          rw [hi.replicas hle] at h2
          exact absurd h2 (List.not_mem_nil _)
        simp [hnil, sortSlice]
  · rw [Remove_of_not_mem cap c srv hm] at hr
    cases hr
    exact hi

theorem Reachable.inv {c : Consistent} (h : Reachable c) : Inv c := by
  induction h with
  | new crc opts ho =>
    obtain ⟨_, h2, h3⟩ := NewConsistent_fields crc opts ho
    exact Inv_of_fresh _ h2 h3
  | add c srv _ ih => exact Inv_Add c srv ih
  | remove c cap srv r _ hr ih => exact Inv_Remove cap c srv r ih hr

theorem mem_positions (c : Consistent) (srv : String) (p : Hash) :
    p ∈ c.positions srv ↔ ∃ i : Nat, (i : Int) < c.nReplicas ∧ c.hasher (c.srvKey srv i) = p := by
  simp only [positions, List.mem_map, List.mem_range]
  constructor
  · rintro ⟨i, hi, rfl⟩
    exact ⟨i, by omega, rfl⟩
  · rintro ⟨i, hi, rfl⟩
    exact ⟨i, by omega, rfl⟩

theorem addAll_reachable (c : Consistent) (srvs : List String) (h : Reachable c) :
    Reachable (addAll c srvs) := by
  induction srvs generalizing c with
  | nil => exact h
  | cons s srvs ih => exact ih (c.Add s).1 (Reachable.add c s h)

theorem exampleEmpty_reachable : Reachable exampleEmpty :=
  Reachable.new exampleHasher [WithReplicas 1] (by
    intro o ho
    rw [List.mem_singleton] at ho
    subst ho
    exact IsOpt.replicas 1)

/-- When `Get` returns with an error, the error is `ErrNoSrvs`, the member set is empty,
the returned server is the empty string and the ring is the one before the call. -/
theorem Get_error_inv (c c2 : Consistent) (key srv : String) (e : Error)
    (h : c.Get key = .ok (c2, srv, some e)) :
    e = ErrNoSrvs ∧ c.members = ∅ ∧ srv = "" ∧ c2 = c := by
  by_cases hm : c.members = ∅
  · rw [Get_of_empty c key hm] at h
    injection h with h1
    obtain ⟨h2, h3⟩ := Prod.mk.inj h1
    obtain ⟨h4, h5⟩ := Prod.mk.inj h3
    exact ⟨(Option.some.inj h5).symm, hm, h4.symm, h2.symm⟩
  · have hcount : ¬ c.count = 0 := fun h0 => hm ((count_eq_zero_iff c).mp h0)
    simp only [Get, hcount, if_false] at h
    split at h
    · cases h
    · split at h
      · cases h
      · injection h with h1
        have h5 := (Prod.mk.inj (Prod.mk.inj h1).2).2
        cases h5

theorem positions_of_nReplicas (c : Consistent) (srv : String) (N : Nat)
    (hN : c.nReplicas = N) :
    c.positions srv = (List.range N).map (fun i : Nat => c.hasher (c.srvKey srv i)) := by
  simp [positions, hN]

theorem mem_positions_nat (c : Consistent) (srv : String) (N : Nat) (hN : c.nReplicas = N)
    (p : Hash) : p ∈ c.positions srv ↔ ∃ i : Nat, i < N ∧ p = c.hasher (c.srvKey srv i) := by
  rw [positions_of_nReplicas c srv N hN]
  simp only [List.mem_map, List.mem_range]
  constructor
  · rintro ⟨i, hi, rfl⟩
    exact ⟨i, hi, rfl⟩
  · rintro ⟨i, hi, rfl⟩
    exact ⟨i, hi, rfl⟩

/-! ## Rings built by `Add` calls only -/

theorem addAll_append (c : Consistent) (l : List String) (s : String) :
    addAll c (l ++ [s]) = ((addAll c l).Add s).1 := by
  simp [addAll, List.foldl_append]

/-- The ring after adding the pairwise distinct servers `l` to a fresh ring, when the
positions `hash(m + decimal(i))` of the pairs `(m, i)`, `m` in `l` and `i < N`, are
pairwise distinct. -/
theorem addAll_spec (c0 : Consistent) (N : Nat) (hN : c0.nReplicas = N)
    (hm0 : c0.members = ∅) (hr0 : c0.ring = ∅) (hh0 : c0.hashes = []) (l : List String) :
    l.Nodup →
    (∀ m1 ∈ l, ∀ m2 ∈ l, ∀ i1 i2 : Nat, i1 < N → i2 < N →
      c0.hasher (c0.srvKey m1 i1) = c0.hasher (c0.srvKey m2 i2) → m1 = m2 ∧ i1 = i2) →
    (addAll c0 l).hasher = c0.hasher ∧ (addAll c0 l).nReplicas = c0.nReplicas ∧
    (addAll c0 l).members = l.toFinset ∧
    (∀ p m, (addAll c0 l).ring.lookup p = some m ↔ m ∈ l ∧ p ∈ c0.positions m) ∧
    (addAll c0 l).ring.keys.card = N * l.length ∧
    (addAll c0 l).hashes.length = N * l.length := by
  induction l using List.reverseRecOn with
  | nil =>
    intro _ _
    simp [addAll, hm0, hr0, hh0, Finmap.lookup_empty]
  | append_singleton l s ih =>
    intro hnd hinj
    have hnd2 : l.Nodup ∧ s ∉ l := by
      have := List.nodup_append.mp hnd
      refine ⟨this.1, fun hs => ?_⟩
      exact this.2.2 hs (List.mem_singleton_self s)
    have hinj2 : ∀ m1 ∈ l, ∀ m2 ∈ l, ∀ i1 i2 : Nat, i1 < N → i2 < N →
        c0.hasher (c0.srvKey m1 i1) = c0.hasher (c0.srvKey m2 i2) → m1 = m2 ∧ i1 = i2 :=
      fun m1 h1 m2 h2 => hinj m1 (List.mem_append_left _ h1) m2 (List.mem_append_left _ h2)
    obtain ⟨ihh, ihn, ihm, ihr, ihk, ihl⟩ := ih hnd2.1 hinj2
    have hsm : s ∉ (addAll c0 l).members := by
      rw [ihm]
      simpa using hnd2.2
    have hpos : ∀ m, (addAll c0 l).positions m = c0.positions m := by
      intro m
      simp [positions, ihh, ihn, srvKey]
    have hlen : ∀ m, (c0.positions m).length = N := by
      intro m
      simp [positions, hN]
    have hdisj : ∀ p, p ∈ c0.positions s → p ∉ (addAll c0 l).ring := by
      intro p hp hpr
      obtain ⟨m, hm⟩ := Finmap.mem_iff.mp hpr
      obtain ⟨hml, hpm⟩ := (ihr p m).mp hm
      obtain ⟨i, hi, hpi⟩ := (mem_positions_nat c0 s N hN p).mp hp
      obtain ⟨j, hj, hpj⟩ := (mem_positions_nat c0 m N hN p).mp hpm
      have := (hinj s (List.mem_append_right _ (List.mem_singleton_self s)) m
        (List.mem_append_left _ hml) i j hi hj (hpi ▸ hpj)).1
      exact hnd2.2 (this ▸ hml)
    have hndp : (c0.positions s).Nodup := by
      rw [positions_of_nReplicas c0 s N hN]
      refine List.Nodup.map_on ?_ (List.nodup_range N)
      intro i hi j hj hij
      exact (hinj s (List.mem_append_right _ (List.mem_singleton_self s)) s
        (List.mem_append_right _ (List.mem_singleton_self s)) i j (List.mem_range.mp hi)
        (List.mem_range.mp hj) hij).2
    rw [addAll_append, Add_of_not_mem _ _ hsm]
    simp only [hpos]
    refine ⟨ihh, ihn, ?_, ?_, ?_, ?_⟩
    · rw [ihm]
      ext x
      simp [or_comm]
    · intro p m
      rw [lookup_foldl_insert]
      by_cases hp : p ∈ c0.positions s
      · simp only [hp, if_true, Option.some.injEq, List.mem_append, List.mem_singleton]
        constructor
        · intro h
          exact ⟨Or.inr h.symm, h ▸ hp⟩
        · rintro ⟨hml | hms, hpm⟩
          · exact absurd (Finmap.mem_iff.mpr ⟨m, (ihr p m).mpr ⟨hml, hpm⟩⟩) (hdisj p hp)
          · exact hms.symm
      · simp only [hp, if_false, ihr, List.mem_append, List.mem_singleton]
        constructor
        · rintro ⟨h1, h2⟩
          exact ⟨Or.inl h1, h2⟩
        · rintro ⟨hml | hms, hpm⟩
          · exact ⟨hml, hpm⟩
          · exact absurd (hms ▸ hpm) hp
    · have hkeys : ((c0.positions s).foldl (fun m p => m.insert p s) (addAll c0 l).ring).keys
          = (c0.positions s).toFinset ∪ (addAll c0 l).ring.keys := by
        ext p
        simp [Finmap.mem_keys, mem_foldl_insert]
      rw [hkeys, Finset.card_union_of_disjoint, List.toFinset_card_of_nodup hndp, hlen, ihk]
      · simp [Nat.mul_add, Nat.add_comm]
      · rw [Finset.disjoint_left]
        intro p hp hp2
        exact hdisj p (List.mem_toFinset.mp hp) (Finmap.mem_keys.mp hp2)
    · simp [length_sortSlice, ihl, hlen, Nat.mul_add]

/-! ## Properties of the ring operations -/

/-- C1: in a reachable ring with at least one member and a non-empty position list,
`Get(key)` returns without error the server that the mapping assigns to a position `p`
of the list, where `p` is the smallest position strictly greater than `hash(key)`, or
the smallest position of the list when no position is strictly greater than
`hash(key)`. If `p` equals `hash(key)` then every position of the list equals `p`: the
key is resolved through its own position only by wrap-around onto the only position. -/
theorem C1_get_clockwise_successor (c : Consistent) (key : String) (hr : Reachable c)
    (hm : c.members.Nonempty) (hh : c.hashes ≠ []) :
    ∃ p srv, c.ring.lookup p = some srv ∧ c.Get key = .ok (c, srv, none) ∧ p ∈ c.hashes ∧
      ((c.hasher key < p ∧ ∀ q ∈ c.hashes, c.hasher key < q → p ≤ q) ∨
        ((∀ q ∈ c.hashes, q ≤ c.hasher key) ∧ ∀ q ∈ c.hashes, p ≤ q)) ∧
      (p = c.hasher key → ∀ q ∈ c.hashes, q = p) := by
  have hi := hr.inv
  obtain ⟨p, hp, hg⟩ :=
    Get_of_sorted c key hi.sorted (Finset.nonempty_iff_ne_empty.mp hm) hh
  obtain ⟨srv, hsrv⟩ := Finmap.mem_iff.mp ((hi.mirror p).mp hp.1)
  refine ⟨p, srv, hsrv, ?_, hp.1, hp.2, ?_⟩
  · rw [hg]
    simp [ringAt, hsrv]
  · intro hpe q hq
    rcases hp.2 with ⟨h1, _⟩ | ⟨h1, h2⟩
    · exact absurd hpe (Nat.ne_of_gt h1)
    · exact le_antisymm (hpe ▸ h1 q hq) (h2 q hq)

/-- Witness of C1: the example ring with the server `a` and the key `k`. -/
theorem C1_get_clockwise_successor_witness :
    ∃ p srv, exampleA.ring.lookup p = some srv ∧ exampleA.Get "k" = .ok (exampleA, srv, none) ∧
      p ∈ exampleA.hashes ∧
      ((exampleA.hasher "k" < p ∧ ∀ q ∈ exampleA.hashes, exampleA.hasher "k" < q → p ≤ q) ∨
        ((∀ q ∈ exampleA.hashes, q ≤ exampleA.hasher "k") ∧ ∀ q ∈ exampleA.hashes, p ≤ q)) ∧
      (p = exampleA.hasher "k" → ∀ q ∈ exampleA.hashes, q = p) :=
  C1_get_clockwise_successor exampleA "k" (addAll_reachable _ _ exampleEmpty_reachable)
    ⟨"a", by decide⟩ (by decide)

/-- Counterexample to C2 as stated: in the example ring the virtual nodes of `a` and `b`
collide at position 10, which the mapping assigns to `b`. The key `k` is owned by `b`;
after `Remove("a")`, which deletes position 10, it is owned by `c`. -/
theorem C2_counterexample :
    Reachable exampleABC ∧ 2 ≤ exampleABC.members.card ∧ "a" ∈ exampleABC.members ∧
      exampleABC.Get "k" = .ok (exampleABC, "b", none) ∧ "b" ≠ "a" ∧
      ∃ c2, exampleABC.Remove 0 "a" = .ok (c2, none) ∧ c2.Get "k" = .ok (c2, "c", none) ∧
        "c" ≠ "b" :=
  ⟨addAll_reachable _ _ exampleEmpty_reachable, by decide, by decide, rfl, by decide,
    _, rfl, rfl, by decide⟩

/-- C2 (amended): in a reachable ring with at least two members, let `s` be a member none
of whose positions `hash(s + decimal(i))`, `i < nReplicas`, is assigned by the mapping to
a server other than `s`. If `Get(k)` returns a server `t` different from `s`, then
`Remove(s)` succeeds and `Get(k)` still returns `t` afterwards. -/
theorem C2_remove_keeps_other_owners (c : Consistent) (cap : Nat) (s t k : String)
    (hr : Reachable c) (h2 : 2 ≤ c.members.card) (hs : s ∈ c.members)
    (hown : ∀ i : Nat, (i : Int) < c.nReplicas →
      ∀ u, c.ring.lookup (c.hasher (c.srvKey s i)) = some u → u = s)
    (hget : c.Get k = .ok (c, t, none)) (hts : t ≠ s) :
    ∃ c2, c.Remove cap s = .ok (c2, none) ∧ c2.Get k = .ok (c2, t, none) := by
  have hi := hr.inv
  have hm : c.members ≠ ∅ := by
    intro h0
    rw [h0] at h2
    simp at h2
  have hh : c.hashes ≠ [] := by
    intro h0
    rw [Get_of_no_hashes c k hm h0] at hget
    cases hget
  obtain ⟨p, hp, hg⟩ := Get_of_sorted c k hi.sorted hm hh
  rw [hg] at hget
  have htp : ringAt c.ring p = t := by
    injection hget with h1
    exact (Prod.mk.inj (Prod.mk.inj h1).2).1
  obtain ⟨u, hu⟩ := Finmap.mem_iff.mp ((hi.mirror p).mp hp.1)
  have hut : u = t := by
    rw [← htp]
    simp [ringAt, hu]
  subst hut
  have hN : c.nReplicas ≠ 0 := by
    intro h0
    exact hh (hi.replicas (le_of_eq h0))
  have hpn : p ∉ c.positions s := by
    intro hps
    obtain ⟨i, hi1, hi2⟩ := (mem_positions c s p).mp hps
    exact hts (hown i hi1 u (hi2 ▸ hu))
  obtain ⟨ks, hks, he⟩ := Remove_of_mem cap c s hs hN
  have hmem : ∀ q, q ∈ ks ↔ q ∈ (c.positions s).foldl (fun m p => m.erase p) c.ring := by
    intro q
    rw [← Finmap.mem_keys, ← Finset.mem_val, ← hks]
    rfl
  refine ⟨_, he, ?_⟩
  have hi2 := Inv_Remove cap c s _ hi he
  have hm2 : c.members.erase s ≠ ∅ := by
    intro h0
    have := Finset.card_erase_of_mem hs
    rw [h0] at this
    simp at this
    omega
  have hp2 : p ∈ sortSlice ks :=
    (mem_sortSlice ks p).mpr ((hmem p).mpr ((mem_foldl_erase _ _ _).mpr
      ⟨hpn, (hi.mirror p).mp hp.1⟩))
  obtain ⟨p2, hsucc2, hg2⟩ := Get_of_sorted _ k hi2.sorted hm2 (List.ne_nil_of_mem hp2)
  have hsub : ∀ q ∈ sortSlice ks, q ∈ c.hashes := by
    intro q hq
    exact (hi.mirror q).mpr
      ((mem_foldl_erase _ _ _).mp ((hmem q).mp ((mem_sortSlice ks q).mp hq))).2
  have hpp : p2 = p := IsSuccessor.unique hsucc2 (IsSuccessor.of_subset hsub hp2 hp)
  rw [hg2, hpp]
  simp [ringAt, lookup_foldl_erase, hpn, hu]

/-- Witness of C2 (amended): the example ring with `a` and `c`, whose positions differ;
the key `k` is owned by `a` and `c` is removed. -/
theorem C2_remove_keeps_other_owners_witness :
    ∃ c2, exampleAC.Remove 0 "c" = .ok (c2, none) ∧ c2.Get "k" = .ok (c2, "a", none) :=
  C2_remove_keeps_other_owners exampleAC 0 "c" "a" "k"
    (addAll_reachable _ _ exampleEmpty_reachable) (by decide) (by decide)
    (by
      intro i hi u hu
      have h1 : i = 0 := by
        have : exampleAC.nReplicas = 1 := rfl
        omega
      subst h1
      have h2 : exampleAC.ring.lookup (exampleAC.hasher (exampleAC.srvKey "c" (0 : Nat)))
          = some "c" := by decide
      rw [h2] at hu
      exact (Option.some.inj hu).symm)
    rfl (by decide)

/-- C3: `Get(key)` returns the error `ErrNoSrvs` if and only if the member set is empty;
in that case the returned server is the empty string and the ring is unchanged. -/
theorem C3_get_no_servers (c : Consistent) (key : String) :
    ((∃ c2 srv, c.Get key = .ok (c2, srv, some ErrNoSrvs)) ↔ c.members = ∅) ∧
    (c.members = ∅ → c.Get key = .ok (c, "", some ErrNoSrvs)) ∧
    (∀ c2 srv, c.Get key = .ok (c2, srv, some ErrNoSrvs) → srv = "" ∧ c2 = c) := by
  refine ⟨⟨?_, ?_⟩, Get_of_empty c key, ?_⟩
  · rintro ⟨c2, srv, h⟩
    exact (Get_error_inv c c2 key srv _ h).2.1
  · intro h
    exact ⟨c, "", Get_of_empty c key h⟩
  · intro c2 srv h
    exact (Get_error_inv c c2 key srv _ h).2.2

/-- Witness of C3: the example ring without servers. -/
theorem C3_get_no_servers_witness :
    exampleEmpty.members = ∅ ∧ exampleEmpty.Get "k" = .ok (exampleEmpty, "", some ErrNoSrvs) :=
  ⟨rfl, (C3_get_no_servers exampleEmpty "k").2.1 rfl⟩

/-- C4 (the code at the failing input): with `WithReplicas(0)` a server is added without
any position, and `Get` then faults on `c.hashes[idx]` with an index out of range, for
every hasher, server and key. -/
theorem C4_get_faults_with_zero_replicas (crc : Hasher) (srv key : String) :
    ((NewConsistent crc [WithReplicas 0]).Add srv).1.Get key = .error .indexOutOfRange := by
  apply Get_of_no_hashes
  · rw [Add_of_not_mem _ _ (by simp [NewConsistent, WithReplicas])]
    simp
  · rw [Add_of_not_mem _ _ (by simp [NewConsistent, WithReplicas])]
    simp [NewConsistent, WithReplicas, positions, uintToInt, sortSlice]

/-- C5: `Add(srv)` of a member returns `ErrSrvAlreadyExists` and the ring as it was;
and for every ring and every `x`, a second `Add(x)` right after `Add(x)` returns
`ErrSrvAlreadyExists` and leaves the ring (hence the member count, the size of the
mapping and the length of the position list) as it was after the first call. -/
theorem C5_add_existing_member (c : Consistent) (srv x : String) :
    (srv ∈ c.members → c.Add srv = (c, some ErrSrvAlreadyExists)) ∧
    (c.Add x).1.Add x = ((c.Add x).1, some ErrSrvAlreadyExists) ∧
    ((c.Add x).1.Add x).1.members.card = (c.Add x).1.members.card ∧
    ((c.Add x).1.Add x).1.ring.keys.card = (c.Add x).1.ring.keys.card ∧
    ((c.Add x).1.Add x).1.hashes.length = (c.Add x).1.hashes.length := by
  have hx : x ∈ (c.Add x).1.members := by
    by_cases hm : x ∈ c.members
    · rw [Add_of_mem c x hm]
      exact hm
    · rw [Add_of_not_mem c x hm]
      exact Finset.mem_insert_self _ _
  have h2 := Add_of_mem (c.Add x).1 x hx
  refine ⟨Add_of_mem c srv, h2, ?_, ?_, ?_⟩ <;> rw [h2]

/-- Witness of C5: `Add("a")` on the example ring that holds `a`. -/
theorem C5_add_existing_member_witness :
    "a" ∈ exampleA.members ∧ exampleA.Add "a" = (exampleA, some ErrSrvAlreadyExists) :=
  ⟨by decide, (C5_add_existing_member exampleA "a" "a").1 (by decide)⟩

/-- C6: `Remove(srv)` returns `ErrSrvNotExists` if and only if `srv` is not a member, and
the ring it leaves is then the ring before the call. -/
theorem C6_remove_not_member (cap : Nat) (c : Consistent) (srv : String) :
    ((∃ c2, c.Remove cap srv = .ok (c2, some ErrSrvNotExists)) ↔ srv ∉ c.members) ∧
    (srv ∉ c.members → c.Remove cap srv = .ok (c, some ErrSrvNotExists)) ∧
    (∀ c2, c.Remove cap srv = .ok (c2, some ErrSrvNotExists) → c2 = c) := by
  have key : ∀ c2, c.Remove cap srv = .ok (c2, some ErrSrvNotExists) →
      srv ∉ c.members ∧ c2 = c := by
    intro c2 h
    by_cases hm : srv ∈ c.members
    · by_cases h0 : c.nReplicas = 0
      · rw [Remove_zero cap c srv hm h0] at h
        cases h
      · obtain ⟨ks, _, he⟩ := Remove_of_mem cap c srv hm h0
        rw [he] at h
        injection h with h1
        cases (Prod.mk.inj h1).2
    · rw [Remove_of_not_mem cap c srv hm] at h
      injection h with h1
      exact ⟨hm, (Prod.mk.inj h1).1.symm⟩
  refine ⟨⟨?_, ?_⟩, Remove_of_not_mem cap c srv, fun c2 h => (key c2 h).2⟩
  · rintro ⟨c2, h⟩
    exact (key c2 h).1
  · intro h
    exact ⟨c, Remove_of_not_mem cap c srv h⟩

/-- Witness of C6: `Remove("b")` on the example ring that holds only `a`. -/
theorem C6_remove_not_member_witness :
    "b" ∉ exampleA.members ∧ exampleA.Remove 0 "b" = .ok (exampleA, some ErrSrvNotExists) :=
  ⟨by decide, (C6_remove_not_member 0 exampleA "b").2.1 (by decide)⟩

/-- C7: in a ring with replica count `N`, `Add(srv)` of a server that is not a member
returns no error; afterwards the member set is the old one plus `srv`, the mapping sends
`hash(srv + decimal(i))` to `srv` for every `i < N` and agrees with the old mapping at
every other position, and the position list is the ascending arrangement of the old
list followed by the `N` positions, so that its length has grown by `N`. -/
theorem C7_add_new_member (c : Consistent) (srv : String) (N : Nat) (hN : c.nReplicas = N)
    (hm : srv ∉ c.members) :
    ∃ c2, c.Add srv = (c2, none) ∧ c2.members = insert srv c.members ∧
      (∀ i : Nat, i < N → c2.ring.lookup (c.hasher (c.srvKey srv i)) = some srv) ∧
      (∀ p, (∀ i : Nat, i < N → p ≠ c.hasher (c.srvKey srv i)) →
        c2.ring.lookup p = c.ring.lookup p) ∧
      c2.hashes.Sorted (· ≤ ·) ∧
      c2.hashes.Perm
        (c.hashes ++ (List.range N).map (fun i : Nat => c.hasher (c.srvKey srv i))) ∧
      c2.hashes.length = c.hashes.length + N := by
  refine ⟨_, Add_of_not_mem c srv hm, rfl, ?_, ?_, sortSlice_sorted _, ?_, ?_⟩
  · intro i hi
    have hp : c.hasher (c.srvKey srv i) ∈ c.positions srv :=
      (mem_positions_nat c srv N hN _).mpr ⟨i, hi, rfl⟩
    simp [lookup_foldl_insert, hp]
  · intro p hp
    have hpn : p ∉ c.positions srv := by
      intro h
      obtain ⟨i, hi, he⟩ := (mem_positions_nat c srv N hN p).mp h
      exact hp i hi he
    simp [lookup_foldl_insert, hpn]
  · rw [← positions_of_nReplicas c srv N hN]
    exact sortSlice_perm _
  · simp [length_sortSlice, positions_of_nReplicas c srv N hN]

/-- Witness of C7: `Add("c")` on the example ring that holds `a`, with one replica. -/
theorem C7_add_new_member_witness :
    ∃ c2, exampleA.Add "c" = (c2, none) ∧ c2.members = insert "c" exampleA.members ∧
      (∀ i : Nat, i < 1 →
        c2.ring.lookup (exampleA.hasher (exampleA.srvKey "c" i)) = some "c") ∧
      (∀ p, (∀ i : Nat, i < 1 → p ≠ exampleA.hasher (exampleA.srvKey "c" i)) →
        c2.ring.lookup p = exampleA.ring.lookup p) ∧
      c2.hashes.Sorted (· ≤ ·) ∧
      c2.hashes.Perm (exampleA.hashes ++
        (List.range 1).map (fun i : Nat => exampleA.hasher (exampleA.srvKey "c" i))) ∧
      c2.hashes.length = exampleA.hashes.length + 1 :=
  C7_add_new_member exampleA "c" 1 rfl (by decide)

/-- C8: in a ring with replica count `N >= 1`, `Remove(srv)` of a member returns no
error; afterwards the member set is the old one minus `srv`, the mapping has no entry at
`hash(srv + decimal(i))` for `i < N` and agrees with the old mapping at every other
position, and the position list is strictly ascending (so without repetition) and holds
exactly the keys of the new mapping. -/
theorem C8_remove_member (cap : Nat) (c : Consistent) (srv : String) (N : Nat)
    (hN : c.nReplicas = N) (h1 : 1 ≤ N) (hm : srv ∈ c.members) :
    ∃ c2, c.Remove cap srv = .ok (c2, none) ∧ c2.members = c.members.erase srv ∧
      (∀ i : Nat, i < N → c2.ring.lookup (c.hasher (c.srvKey srv i)) = none) ∧
      (∀ p, (∀ i : Nat, i < N → p ≠ c.hasher (c.srvKey srv i)) →
        c2.ring.lookup p = c.ring.lookup p) ∧
      c2.hashes.Sorted (· < ·) ∧ c2.hashes.Nodup ∧
      (∀ p, p ∈ c2.hashes ↔ p ∈ c2.ring) ∧
      c2.hashes.length = c2.ring.keys.card := by
  have h0 : c.nReplicas ≠ 0 := by omega
  obtain ⟨ks, hks, he⟩ := Remove_of_mem cap c srv hm h0
  have hnd : ks.Nodup := by
    have h := ((c.positions srv).foldl (fun m p => m.erase p) c.ring).keys.nodup
    rw [← hks] at h
    exact Multiset.coe_nodup.mp h
  have hmem : ∀ p, p ∈ ks ↔ p ∈ (c.positions srv).foldl (fun m p => m.erase p) c.ring := by
    intro p
    rw [← Finmap.mem_keys, ← Finset.mem_val, ← hks]
    rfl
  have hnd2 : (sortSlice ks).Nodup := sortSlice_nodup ks hnd
  refine ⟨_, he, rfl, ?_, ?_, ?_, hnd2, ?_, ?_⟩
  · intro i hi
    have hp : c.hasher (c.srvKey srv i) ∈ c.positions srv :=
      (mem_positions_nat c srv N hN _).mpr ⟨i, hi, rfl⟩
    simp [lookup_foldl_erase, hp]
  · intro p hp
    have hpn : p ∉ c.positions srv := by
      intro h
      obtain ⟨i, hi, he⟩ := (mem_positions_nat c srv N hN p).mp h
      exact hp i hi he
    simp [lookup_foldl_erase, hpn]
  · exact (sortSlice_sorted ks).lt_of_le hnd2
  · intro p
    simp only [mem_sortSlice, hmem]
  · simp only [length_sortSlice]
    rw [Finset.card_def, ← hks]
    rfl

/-- Witness of C8: `Remove("c")` on the example ring that holds `a` and `c`. -/
theorem C8_remove_member_witness :
    ∃ c2, exampleAC.Remove 0 "c" = .ok (c2, none) ∧ c2.members = exampleAC.members.erase "c" ∧
      (∀ i : Nat, i < 1 → c2.ring.lookup (exampleAC.hasher (exampleAC.srvKey "c" i)) = none) ∧
      (∀ p, (∀ i : Nat, i < 1 → p ≠ exampleAC.hasher (exampleAC.srvKey "c" i)) →
        c2.ring.lookup p = exampleAC.ring.lookup p) ∧
      c2.hashes.Sorted (· < ·) ∧ c2.hashes.Nodup ∧
      (∀ p, p ∈ c2.hashes ↔ p ∈ c2.ring) ∧
      c2.hashes.length = c2.ring.keys.card :=
  C8_remove_member 0 exampleAC "c" 1 rfl (by decide) (by decide)

/-- C9 (the code at the failing input): with `WithReplicas(0)`, `Remove` of a member
faults in `updateHashes` on the division `cap(c.hashes)/(c.nReplicas)`, an integer
division by zero, for every hasher, capacity and server. -/
theorem C9_remove_faults_with_zero_replicas (crc : Hasher) (cap : Nat) (srv : String) :
    ((NewConsistent crc [WithReplicas 0]).Add srv).1.Remove cap srv =
      .error .integerDivideByZero := by
  apply Remove_zero
  · rw [Add_of_not_mem _ _ (by simp [NewConsistent, WithReplicas])]
    exact Finset.mem_insert_self _ _
  · rw [Add_of_not_mem _ _ (by simp [NewConsistent, WithReplicas])]
    simp [NewConsistent, WithReplicas, uintToInt]

/-- Counterexample to C10 as stated: with 11 replicas the servers `a` and `a1` generate
the key `a10` twice (`"a" + "10"` and `"a1" + "0"`). The hasher sends different generated
keys to different positions, and still the mapping has 21 entries for 2 members, of
which 10 have the value `a`. -/
theorem C10_counterexample :
    ["a", "a1"].Nodup ∧ examplePrefix.nReplicas = 11 ∧
    examplePrefix.members = {"a", "a1"} ∧
    (∀ m1 ∈ ["a", "a1"], ∀ m2 ∈ ["a", "a1"], ∀ i1 : Nat, i1 < 11 → ∀ i2 : Nat, i2 < 11 →
      examplePrefix.srvKey m1 i1 ≠ examplePrefix.srvKey m2 i2 →
      examplePrefix.hasher (examplePrefix.srvKey m1 i1) ≠
        examplePrefix.hasher (examplePrefix.srvKey m2 i2)) ∧
    (Finset.filter (fun p => examplePrefix.ring.lookup p = some "a")
      examplePrefix.ring.keys).card = 10 ∧
    examplePrefix.ring.keys.card = 21 ∧
    examplePrefix.ring.keys.card ≠ 11 * examplePrefix.members.card := by
  refine ⟨by decide, rfl, by decide, ?_, by decide, by decide, by decide⟩
  decide

/-- C10 (amended): let `c0` be a fresh ring with replica count `N` and `c` the ring
after `Add` calls of the pairwise distinct servers `srvs`. If the positions
`hash(m + decimal(i))` are pairwise distinct over the pairs (server `m` of `srvs`, index
`i < N`), then the members are the servers of `srvs`, every member has exactly `N`
entries of the mapping, and the mapping and the position list both have `N` times the
member count elements. -/
theorem C10_entries_per_member (crc : Hasher) (opts : List opt) (c0 c : Consistent)
    (srvs : List String) (N : Nat) (hopts : ∀ o ∈ opts, IsOpt o)
    (h0 : c0 = NewConsistent crc opts) (hN : c0.nReplicas = N) (hnd : srvs.Nodup)
    (hc : c = addAll c0 srvs)
    (hinj : ∀ m1 ∈ srvs, ∀ m2 ∈ srvs, ∀ i1 i2 : Nat, i1 < N → i2 < N →
      c0.hasher (c0.srvKey m1 i1) = c0.hasher (c0.srvKey m2 i2) → m1 = m2 ∧ i1 = i2) :
    c.members = srvs.toFinset ∧ c.members.card = srvs.length ∧
    (∀ m ∈ c.members,
      (Finset.filter (fun p => c.ring.lookup p = some m) c.ring.keys).card = N) ∧
    c.ring.keys.card = N * c.members.card ∧
    c.hashes.length = N * c.members.card := by
  have hf := NewConsistent_fields crc opts hopts
  rw [← h0] at hf
  obtain ⟨_, _, hm, hr, hk, hl⟩ := addAll_spec c0 N hN hf.1 hf.2.1 hf.2.2 srvs hnd hinj
  rw [← hc] at hm hr hk hl
  have hcard : c.members.card = srvs.length := by
    rw [hm, List.toFinset_card_of_nodup hnd]
  refine ⟨hm, hcard, ?_, by rw [hk, hcard], by rw [hl, hcard]⟩
  intro m hmm
  have hml : m ∈ srvs := by
    rw [hm] at hmm
    exact List.mem_toFinset.mp hmm
  have hset : Finset.filter (fun p => c.ring.lookup p = some m) c.ring.keys
      = (c0.positions m).toFinset := by
    ext p
    simp only [Finset.mem_filter, Finmap.mem_keys, List.mem_toFinset]
    constructor
    · rintro ⟨_, h⟩
      exact ((hr p m).mp h).2
    · intro h
      have hl2 := (hr p m).mpr ⟨hml, h⟩
      exact ⟨Finmap.mem_iff.mpr ⟨m, hl2⟩, hl2⟩
  have hndp : (c0.positions m).Nodup := by
    rw [positions_of_nReplicas c0 m N hN]
    refine List.Nodup.map_on ?_ (List.nodup_range N)
    intro i hi j hj hij
    exact (hinj m hml m hml i j (List.mem_range.mp hi) (List.mem_range.mp hj) hij).2
  rw [hset, List.toFinset_card_of_nodup hndp]
  simp [positions, hN]

/-- Witness of C10 (amended): the example ring with one replica after `Add("a")`,
`Add("c")`, whose two positions are 10 and 30. -/
theorem C10_entries_per_member_witness :
    exampleAC.members = ["a", "c"].toFinset ∧ exampleAC.members.card = ["a", "c"].length ∧
    (∀ m ∈ exampleAC.members,
      (Finset.filter (fun p => exampleAC.ring.lookup p = some m) exampleAC.ring.keys).card
        = 1) ∧
    exampleAC.ring.keys.card = 1 * exampleAC.members.card ∧
    exampleAC.hashes.length = 1 * exampleAC.members.card :=
  C10_entries_per_member exampleHasher [WithReplicas 1] exampleEmpty exampleAC ["a", "c"] 1
    (by
      intro o ho
      rw [List.mem_singleton] at ho
      subst ho
      exact IsOpt.replicas 1)
    rfl rfl (by decide) rfl
    (by
      intro m1 h1 m2 h2 i1 i2 hi1 hi2
      have e1 : i1 = 0 := by omega
      have e2 : i2 = 0 := by omega
      subst e1 e2
      simp only [List.mem_cons, List.mem_singleton, List.not_mem_nil, or_false] at h1 h2
      rcases h1 with rfl | rfl <;> rcases h2 with rfl | rfl <;> decide)

/-! ## Collisions -/

/-- Two successful `Add` calls in a row: both return no error, and a position of the
second server is assigned to the second server afterwards. -/
theorem Add_Add_lookup (c : Consistent) (a b : String) (p : Hash) (hab : a ≠ b)
    (ha : a ∉ c.members) (hb : b ∉ c.members) (hp : p ∈ c.positions b) :
    (c.Add a).2 = none ∧ ((c.Add a).1.Add b).2 = none ∧
      ((c.Add a).1.Add b).1.ring.lookup p = some b := by
  have hb2 : b ∉ (c.Add a).1.members := by
    rw [Add_of_not_mem c a ha]
    simp only [Finset.mem_insert, not_or]
    exact ⟨fun h => hab h.symm, hb⟩
  have hpos : (c.Add a).1.positions b = c.positions b := by
    rw [Add_of_not_mem c a ha]
    rfl
  refine ⟨by rw [Add_of_not_mem c a ha], by rw [Add_of_not_mem _ b hb2], ?_⟩
  rw [Add_of_not_mem _ b hb2]
  simp only [lookup_foldl_insert, hpos, hp, if_true]

/-- C11: in a ring with replica count `N`, let `a` and `b` be different servers, neither
a member, and `p` a position that is both `hash(a + decimal(i))` and
`hash(b + decimal(j))` for some `i, j < N`. Then `Add(a)` followed by `Add(b)` both
succeed and leave `p` assigned to `b`, and `Add(b)` followed by `Add(a)` both succeed
and leave `p` assigned to `a`: the later call wins, whatever the indices and the ring. -/
theorem C11_collision_last_write_wins (c : Consistent) (a b : String) (N i j : Nat)
    (p : Hash) (hN : c.nReplicas = N) (hab : a ≠ b) (ha : a ∉ c.members)
    (hb : b ∉ c.members) (hi : i < N) (hj : j < N) (hpa : p = c.hasher (c.srvKey a i))
    (hpb : p = c.hasher (c.srvKey b j)) :
    (c.Add a).2 = none ∧ ((c.Add a).1.Add b).2 = none ∧
      ((c.Add a).1.Add b).1.ring.lookup p = some b ∧
    (c.Add b).2 = none ∧ ((c.Add b).1.Add a).2 = none ∧
      ((c.Add b).1.Add a).1.ring.lookup p = some a := by
  have h1 := Add_Add_lookup c a b p hab ha hb
    ((mem_positions_nat c b N hN p).mpr ⟨j, hj, hpb⟩)
  have h2 := Add_Add_lookup c b a p (fun h => hab h.symm) hb ha
    ((mem_positions_nat c a N hN p).mpr ⟨i, hi, hpa⟩)
  exact ⟨h1.1, h1.2.1, h1.2.2, h2.1, h2.2.1, h2.2.2⟩

/-- Witness of C11: in the example ring without servers, `a` and `b` collide at 10. -/
theorem C11_collision_last_write_wins_witness :
    (exampleEmpty.Add "a").2 = none ∧ ((exampleEmpty.Add "a").1.Add "b").2 = none ∧
      ((exampleEmpty.Add "a").1.Add "b").1.ring.lookup 10 = some "b" ∧
    (exampleEmpty.Add "b").2 = none ∧ ((exampleEmpty.Add "b").1.Add "a").2 = none ∧
      ((exampleEmpty.Add "b").1.Add "a").1.ring.lookup 10 = some "a" :=
  C11_collision_last_write_wins exampleEmpty "a" "b" 1 0 0 10 rfl (by decide) (by decide)
    (by decide) (by decide) (by decide) (by decide) (by decide)

/-! ## The snapshot -/

theorem positionsIn_append (l : List (Sigma (fun _ : Hash => String)))
    (e : Sigma (fun _ : Hash => String)) (m : String) :
    positionsIn (l ++ [e]) m = positionsIn l m ++ (if e.2 = m then [e.1] else []) := by
  by_cases h : e.2 = m <;> simp [positionsIn, List.filter_append, List.filter_cons, h]

/-- The loop of `Snapshot` collects under each server the positions of its entries, in
the order of the visit; a server without entry is not a key of the result. -/
theorem lookup_foldl_snapshotStep (order : List (Sigma (fun _ : Hash => String)))
    (m : String) :
    (order.foldl snapshotStep ∅).lookup m =
      if positionsIn order m = [] then none else some (positionsIn order m) := by
  induction order using List.reverseRecOn generalizing m with
  | nil => simp [positionsIn, Finmap.lookup_empty]
  | append_singleton l e ih =>
    have hat : ∀ k, membersAt (l.foldl snapshotStep ∅) k = positionsIn l k := by
      intro k
      rw [membersAt, ih k]
      by_cases hk : positionsIn l k = [] <;> simp [hk]
    have hat1 : membersAt (if e.2 ∈ l.foldl snapshotStep ∅ then l.foldl snapshotStep ∅
        else (l.foldl snapshotStep ∅).insert e.2 []) e.2 = positionsIn l e.2 := by
      by_cases he : e.2 ∈ l.foldl snapshotStep ∅
      · simp only [he, if_true, hat]
      · have h0 := hat e.2
        rw [membersAt, Finmap.lookup_eq_none.mpr he] at h0
        simp only [he, if_false, membersAt, Finmap.lookup_insert]
        exact h0
    rw [List.foldl_append, List.foldl_cons, List.foldl_nil, positionsIn_append]
    by_cases hm : e.2 = m
    · subst hm
      simp only [snapshotStep, Finmap.lookup_insert, hat1, if_true]
      simp
    · have hne : m ≠ e.2 := fun h => hm h.symm
      simp only [snapshotStep, Finmap.lookup_insert_of_ne _ hne, hm, if_false,
        List.append_nil]
      by_cases he : e.2 ∈ l.foldl snapshotStep ∅
      · simp only [he, if_true, ih m]
      · simp only [he, if_false, Finmap.lookup_insert_of_ne _ hne, ih m]

theorem membersAt_snapshot (c : Consistent) (order : List (Sigma (fun _ : Hash => String)))
    (m : String) : membersAt (c.Snapshot order).2.Members m = positionsIn order m := by
  simp only [Snapshot, membersAt, lookup_foldl_snapshotStep]
  by_cases hk : positionsIn order m = [] <;> simp [hk]

theorem mem_snapshot (c : Consistent) (order : List (Sigma (fun _ : Hash => String)))
    (m : String) : m ∈ (c.Snapshot order).2.Members ↔ positionsIn order m ≠ [] := by
  rw [← Finmap.lookup_isSome]
  simp only [Snapshot, lookup_foldl_snapshotStep]
  by_cases hk : positionsIn order m = [] <;> simp [hk]

theorem mem_positionsIn (order : List (Sigma (fun _ : Hash => String))) (m : String)
    (h : Hash) : h ∈ positionsIn order m ↔ (⟨h, m⟩ : Sigma (fun _ : Hash => String)) ∈ order := by
  simp only [positionsIn, List.mem_map, List.mem_filter, decide_eq_true_eq]
  constructor
  · rintro ⟨⟨h2, m2⟩, ⟨he, hm⟩, hh⟩
    simp only at hm hh
    subst hm hh
    exact he
  · intro he
    exact ⟨⟨h, m⟩, ⟨he, rfl⟩, rfl⟩

/-- An enumeration of the entries of the mapping holds `(h, m)` exactly when the mapping
assigns `h` to `m`. -/
theorem mem_order_iff (c : Consistent) (order : List (Sigma (fun _ : Hash => String)))
    (horder : (order : Multiset (Sigma (fun _ : Hash => String))) = c.ring.entries)
    (h : Hash) (m : String) :
    (⟨h, m⟩ : Sigma (fun _ : Hash => String)) ∈ order ↔ c.ring.lookup h = some m := by
  rw [Finmap.lookup_eq_some_iff, ← horder]
  exact Multiset.mem_coe.symm

theorem order_keys_nodup (c : Consistent) (order : List (Sigma (fun _ : Hash => String)))
    (horder : (order : Multiset (Sigma (fun _ : Hash => String))) = c.ring.entries) :
    (order.map (fun e => e.1)).Nodup := by
  have h := c.ring.nodupKeys
  rw [← horder] at h
  exact Multiset.coe_nodupKeys.mp h

theorem positionsIn_nodup (order : List (Sigma (fun _ : Hash => String))) (m : String)
    (hnd : (order.map (fun e => e.1)).Nodup) : (positionsIn order m).Nodup :=
  List.Nodup.sublist (List.Sublist.map _ (List.filter_sublist _)) hnd

theorem length_positionsIn (order : List (Sigma (fun _ : Hash => String))) (m : String) :
    (positionsIn order m).length = (order.map (fun e => e.2)).count m := by
  induction order with
  | nil => rfl
  | cons e l ih =>
    by_cases h : e.2 = m
    · simp [positionsIn, List.filter_cons, h] at ih ⊢
      exact ih
    · simp [positionsIn, List.filter_cons, h, List.count_cons] at ih ⊢
      exact ih

theorem snapshot_keys (c : Consistent) (order : List (Sigma (fun _ : Hash => String))) :
    (c.Snapshot order).2.Members.keys = (order.map (fun e => e.2)).toFinset := by
  ext m
  rw [Finmap.mem_keys, mem_snapshot, List.mem_toFinset, List.mem_map]
  constructor
  · intro hne
    obtain ⟨h, hh⟩ := List.exists_mem_of_ne_nil _ hne
    exact ⟨⟨h, m⟩, (mem_positionsIn order m h).mp hh, rfl⟩
  · rintro ⟨⟨h, m2⟩, he, hm⟩
    simp only at hm
    subst hm
    exact List.ne_nil_of_mem ((mem_positionsIn order m2 h).mpr he)

theorem order_length (c : Consistent) (order : List (Sigma (fun _ : Hash => String)))
    (horder : (order : Multiset (Sigma (fun _ : Hash => String))) = c.ring.entries) :
    order.length = c.ring.keys.card := by
  have h1 : c.ring.keys.card = Multiset.card c.ring.entries := by
    rw [Finset.card_def]
    show Multiset.card (c.ring.entries.keys) = _
    exact Multiset.card_map _ _
  rw [h1, ← horder]
  rfl

/-- Counterexample to C12 as stated: in the example ring where `a` and `b` collide, `a` is
a member and owns no entry of the mapping, so the snapshot has no key `a`. -/
theorem C12_counterexample :
    Reachable exampleABC ∧
    (([⟨10, "b"⟩, ⟨30, "c"⟩] : List (Sigma (fun _ : Hash => String))) :
      Multiset (Sigma (fun _ : Hash => String))) = exampleABC.ring.entries ∧
    "a" ∈ exampleABC.members ∧
    "a" ∉ (exampleABC.Snapshot [⟨10, "b"⟩, ⟨30, "c"⟩]).2.Members ∧
    (exampleABC.Snapshot [⟨10, "b"⟩, ⟨30, "c"⟩]).2.Members.keys ≠ exampleABC.members :=
  ⟨addAll_reachable _ _ exampleEmpty_reachable, by decide, by decide, by decide, by decide⟩

/-- C12 (amended): in every reachable ring and for every order in which `Snapshot` visits
the entries of the mapping, the keys of `Snapshot().Members` are exactly the servers to
which the mapping assigns at least one position; every key is a current member, and a
member is a key exactly when it owns at least one entry of the mapping. -/
theorem C12_snapshot_keys (c : Consistent) (order : List (Sigma (fun _ : Hash => String)))
    (hr : Reachable c)
    (horder : (order : Multiset (Sigma (fun _ : Hash => String))) = c.ring.entries) :
    (∀ m, m ∈ (c.Snapshot order).2.Members.keys ↔ ∃ h, c.ring.lookup h = some m) ∧
    (c.Snapshot order).2.Members.keys ⊆ c.members ∧
    (∀ m ∈ c.members,
      m ∈ (c.Snapshot order).2.Members.keys ↔ ∃ h, c.ring.lookup h = some m) := by
  have key : ∀ m, m ∈ (c.Snapshot order).2.Members.keys ↔ ∃ h, c.ring.lookup h = some m := by
    intro m
    rw [Finmap.mem_keys, mem_snapshot]
    constructor
    · intro hne
      obtain ⟨h, hh⟩ := List.exists_mem_of_ne_nil _ hne
      exact ⟨h, (mem_order_iff c order horder h m).mp ((mem_positionsIn order m h).mp hh)⟩
    · rintro ⟨h, hh⟩
      exact List.ne_nil_of_mem
        ((mem_positionsIn order m h).mpr ((mem_order_iff c order horder h m).mpr hh))
  refine ⟨key, ?_, fun m _ => key m⟩
  intro m hm
  obtain ⟨h, hh⟩ := (key m).mp hm
  exact (hr.inv.owner h m hh).1

/-- Witness of C12 (amended): the example ring with `a` and `c`. -/
theorem C12_snapshot_keys_witness :
    (∀ m, m ∈ (exampleAC.Snapshot [⟨10, "a"⟩, ⟨30, "c"⟩]).2.Members.keys ↔
      ∃ h, exampleAC.ring.lookup h = some m) ∧
    (exampleAC.Snapshot [⟨10, "a"⟩, ⟨30, "c"⟩]).2.Members.keys ⊆ exampleAC.members ∧
    (∀ m ∈ exampleAC.members,
      m ∈ (exampleAC.Snapshot [⟨10, "a"⟩, ⟨30, "c"⟩]).2.Members.keys ↔
        ∃ h, exampleAC.ring.lookup h = some m) :=
  C12_snapshot_keys exampleAC [⟨10, "a"⟩, ⟨30, "c"⟩]
    (addAll_reachable _ _ exampleEmpty_reachable) (by decide)

/-- C13: for every ring and every order in which `Snapshot` visits the entries of the
mapping, a position `h` occurs in `Snapshot().Members[m]` if and only if the mapping
assigns `h` to `m`; no list holds a position twice and no position is in the lists of
two servers; the lengths of the lists add up to the size of the mapping; and the ring is
left as it was. -/
theorem C13_snapshot_groups_mapping (c : Consistent)
    (order : List (Sigma (fun _ : Hash => String)))
    (horder : (order : Multiset (Sigma (fun _ : Hash => String))) = c.ring.entries) :
    (∀ m h, h ∈ membersAt (c.Snapshot order).2.Members m ↔ c.ring.lookup h = some m) ∧
    (∀ m, (membersAt (c.Snapshot order).2.Members m).Nodup) ∧
    (∀ m1 m2 h, h ∈ membersAt (c.Snapshot order).2.Members m1 →
      h ∈ membersAt (c.Snapshot order).2.Members m2 → m1 = m2) ∧
    Finset.sum (c.Snapshot order).2.Members.keys
      (fun m => (membersAt (c.Snapshot order).2.Members m).length) = c.ring.keys.card ∧
    (c.Snapshot order).1 = c := by
  have key : ∀ m h, h ∈ membersAt (c.Snapshot order).2.Members m ↔
      c.ring.lookup h = some m := by
    intro m h
    rw [membersAt_snapshot, mem_positionsIn, mem_order_iff c order horder]
  refine ⟨key, ?_, ?_, ?_, rfl⟩
  · intro m
    rw [membersAt_snapshot]
    exact positionsIn_nodup order m (order_keys_nodup c order horder)
  · intro m1 m2 h h1 h2
    have e1 := (key m1 h).mp h1
    have e2 := (key m2 h).mp h2
    rw [e1] at e2
    exact Option.some.inj e2
  · rw [snapshot_keys]
    simp only [membersAt_snapshot, length_positionsIn]
    rw [List.sum_toFinset_count_eq_length, List.length_map]
    exact order_length c order horder

/-- Witness of C13: the example ring with `a` and `c`, visited in ascending order. -/
theorem C13_snapshot_groups_mapping_witness :
    (∀ m h, h ∈ membersAt (exampleAC.Snapshot [⟨10, "a"⟩, ⟨30, "c"⟩]).2.Members m ↔
      exampleAC.ring.lookup h = some m) ∧
    (∀ m, (membersAt (exampleAC.Snapshot [⟨10, "a"⟩, ⟨30, "c"⟩]).2.Members m).Nodup) ∧
    (∀ m1 m2 h, h ∈ membersAt (exampleAC.Snapshot [⟨10, "a"⟩, ⟨30, "c"⟩]).2.Members m1 →
      h ∈ membersAt (exampleAC.Snapshot [⟨10, "a"⟩, ⟨30, "c"⟩]).2.Members m2 → m1 = m2) ∧
    Finset.sum (exampleAC.Snapshot [⟨10, "a"⟩, ⟨30, "c"⟩]).2.Members.keys
      (fun m => (membersAt (exampleAC.Snapshot [⟨10, "a"⟩, ⟨30, "c"⟩]).2.Members m).length)
      = exampleAC.ring.keys.card ∧
    (exampleAC.Snapshot [⟨10, "a"⟩, ⟨30, "c"⟩]).1 = exampleAC :=
  C13_snapshot_groups_mapping exampleAC [⟨10, "a"⟩, ⟨30, "c"⟩] (by decide)

/-! ## `Get` as a read -/

/-- A `Get` call that returns leaves the ring as it was. -/
theorem Get_state (c : Consistent) (key : String) (r : Consistent × String × Option Error)
    (h : c.Get key = .ok r) : r.1 = c := by
  by_cases hm : c.members = ∅
  · rw [Get_of_empty c key hm] at h
    injection h with h1
    rw [← h1]
  · have hcount : ¬ c.count = 0 := fun h0 => hm ((count_eq_zero_iff c).mp h0)
    simp only [Get, hcount, if_false] at h
    split at h
    · cases h
    · split at h
      · cases h
      · injection h with h1
        rw [← h1]

theorem GetRepeated_eq (key : String) (n : Nat) (c : Consistent) :
    GetRepeated c key n = c.Get key := by
  induction n generalizing c with
  | zero => rfl
  | succ n ih =>
    cases hg : c.Get key with
    | error f => simp [GetRepeated, hg]
    | ok r =>
      simp only [GetRepeated, hg]
      rw [ih r.1, Get_state c key r hg, hg]

theorem getResult_congr (c d : Consistent) (h : SameRing c d) (key : String) :
    getResult c key = getResult d key := by
  obtain ⟨m, r, hs, hh, n, rem⟩ := c
  obtain ⟨m2, r2, hs2, hh2, n2, rem2⟩ := d
  obtain ⟨h1, h2, h3, h4, h5⟩ := h
  simp only at h1 h2 h3 h4 h5
  subst h1 h2 h3 h4 h5
  have hp : searchPred
      { members := m, ring := r, hashes := hs, hasher := hh, nReplicas := n, remote := rem }
      (hh key) = searchPred
      { members := m, ring := r, hashes := hs, hasher := hh, nReplicas := n, remote := rem2 }
      (hh key) := rfl
  simp only [getResult, Get, count, search]
  rw [hp]
  by_cases hc : (m.card : Int) = 0
  · simp only [hc, if_true]
  · simp only [hc, if_false]
    generalize sortSearch hs.length (searchPred
      { members := m, ring := r, hashes := hs, hasher := hh, nReplicas := n, remote := rem2 }
      (hh key)) = sr
    cases sr with
    | error e => rfl
    | ok idx =>
      by_cases hi : idx = hs.length
      · simp only [hi, if_true]
        cases index hs 0 <;> rfl
      · simp only [hi, if_false]
        cases index hs idx <;> rfl

theorem SameRing_Add (c d : Consistent) (h : SameRing c d) (srv : String) :
    SameRing (c.Add srv).1 (d.Add srv).1 := by
  obtain ⟨h1, h2, h3, h4, h5⟩ := h
  by_cases hm : srv ∈ c.members
  · rw [Add_of_mem c srv hm, Add_of_mem d srv (h1 ▸ hm)]
    exact ⟨h1, h2, h3, h4, h5⟩
  · have hp : c.positions srv = d.positions srv := by
      simp [positions, h4, h5, srvKey]
    rw [Add_of_not_mem c srv hm, Add_of_not_mem d srv (h1 ▸ hm)]
    refine ⟨?_, ?_, ?_, h4, h5⟩
    · simp only [h1]
    · simp only [hp, h2]
    · simp only [hp, h3]

theorem SameRing_addAll (srvs : List String) (c d : Consistent) (h : SameRing c d) :
    SameRing (addAll c srvs) (addAll d srvs) := by
  induction srvs generalizing c d with
  | nil => exact h
  | cons s srvs ih => exact ih (c.Add s).1 (d.Add s).1 (SameRing_Add c d h s)

/-- C14: for every ring and key, a `Get(key)` that returns leaves the member set, the
mapping and the position list (the whole ring) as they were, and any number of
`Get(key)` calls in a row gives what one call gives; and two fresh rings with the same
hasher and replica count, after the same sequence of `Add` calls, give the same server
and error (or the same panic) for every key. -/
theorem C14_get_deterministic (c : Consistent) (key : String) (n : Nat)
    (crc1 crc2 : Hasher) (opts1 opts2 : List opt) (srvs : List String) :
    (∀ r, c.Get key = .ok r → r.1 = c ∧ r.1.Get key = .ok r) ∧
    GetRepeated c key n = c.Get key ∧
    ((∀ o ∈ opts1, IsOpt o) → (∀ o ∈ opts2, IsOpt o) →
      (NewConsistent crc1 opts1).hasher = (NewConsistent crc2 opts2).hasher →
      (NewConsistent crc1 opts1).nReplicas = (NewConsistent crc2 opts2).nReplicas →
      getResult (addAll (NewConsistent crc1 opts1) srvs) key =
        getResult (addAll (NewConsistent crc2 opts2) srvs) key) := by
  refine ⟨?_, GetRepeated_eq key n c, ?_⟩
  · intro r hr
    have h1 := Get_state c key r hr
    exact ⟨h1, by rw [h1]; exact hr⟩
  · intro ho1 ho2 hh hn
    obtain ⟨a1, a2, a3⟩ := NewConsistent_fields crc1 opts1 ho1
    obtain ⟨b1, b2, b3⟩ := NewConsistent_fields crc2 opts2 ho2
    exact getResult_congr _ _
      (SameRing_addAll srvs _ _ ⟨by rw [a1, b1], by rw [a2, b2], by rw [a3, b3], hh, hn⟩) key

/-- Witness of C14: the example ring with `a` and `c`, three calls in a row, and two
rings that differ in the default hasher and in the order of their options. -/
theorem C14_get_deterministic_witness :
    exampleAC.Get "k" = .ok (exampleAC, "a", none) ∧
    GetRepeated exampleAC "k" 2 = exampleAC.Get "k" ∧
    getResult (addAll (NewConsistent exampleHasher [WithReplicas 1]) ["a", "c"]) "k" =
      getResult (addAll
        (NewConsistent lengthSumHasher [WithReplicas 1, WithHasher exampleHasher])
        ["a", "c"]) "k" :=
  ⟨rfl, (C14_get_deterministic exampleAC "k" 2 exampleHasher lengthSumHasher
      [WithReplicas 1] [WithReplicas 1, WithHasher exampleHasher] ["a", "c"]).2.1,
    (C14_get_deterministic exampleAC "k" 2 exampleHasher lengthSumHasher
      [WithReplicas 1] [WithReplicas 1, WithHasher exampleHasher] ["a", "c"]).2.2
      (by
        intro o ho
        rw [List.mem_singleton] at ho
        subst ho
        exact IsOpt.replicas 1)
      (by
        intro o ho
        simp only [List.mem_cons, List.mem_singleton, List.not_mem_nil, or_false] at ho
        rcases ho with rfl | rfl
        · exact IsOpt.replicas 1
        · exact IsOpt.hasher exampleHasher)
      rfl rfl⟩

/-- C15: for every list of options, the ring that `NewConsistent` returns has no member,
an empty mapping and an empty position list; `Get(key)` on it returns `ErrNoSrvs` (with
the empty string, the ring unchanged) for every key, and `Snapshot()` returns an empty
mapping. -/
theorem C15_new_ring_is_empty (crc : Hasher) (opts : List opt) (key : String)
    (order : List (Sigma (fun _ : Hash => String))) (ho : ∀ o ∈ opts, IsOpt o)
    (horder : (order : Multiset (Sigma (fun _ : Hash => String))) =
      (NewConsistent crc opts).ring.entries) :
    (NewConsistent crc opts).members = ∅ ∧ (NewConsistent crc opts).ring = ∅ ∧
    (NewConsistent crc opts).hashes = [] ∧
    (NewConsistent crc opts).Get key = .ok (NewConsistent crc opts, "", some ErrNoSrvs) ∧
    ((NewConsistent crc opts).Snapshot order).2.Members = ∅ := by
  obtain ⟨h1, h2, h3⟩ := NewConsistent_fields crc opts ho
  refine ⟨h1, h2, h3, Get_of_empty _ key h1, ?_⟩
  have hnil : order = [] := by
    rw [h2] at horder
    exact (Multiset.coe_eq_zero order).mp horder
  rw [hnil]
  rfl

/-- Witness of C15: the ring built with a hasher, 3 replicas and a remote without event. -/
theorem C15_new_ring_is_empty_witness :
    (NewConsistent exampleHasher [WithHasher lengthSumHasher, WithReplicas 3,
      WithRemote { EventsCh := [] }]).members = ∅ ∧
    (NewConsistent exampleHasher [WithHasher lengthSumHasher, WithReplicas 3,
      WithRemote { EventsCh := [] }]).ring = ∅ ∧
    (NewConsistent exampleHasher [WithHasher lengthSumHasher, WithReplicas 3,
      WithRemote { EventsCh := [] }]).hashes = [] ∧
    (NewConsistent exampleHasher [WithHasher lengthSumHasher, WithReplicas 3,
      WithRemote { EventsCh := [] }]).Get "k" =
      .ok (NewConsistent exampleHasher [WithHasher lengthSumHasher, WithReplicas 3,
        WithRemote { EventsCh := [] }], "", some ErrNoSrvs) ∧
    ((NewConsistent exampleHasher [WithHasher lengthSumHasher, WithReplicas 3,
      WithRemote { EventsCh := [] }]).Snapshot []).2.Members = ∅ :=
  C15_new_ring_is_empty exampleHasher
    [WithHasher lengthSumHasher, WithReplicas 3, WithRemote { EventsCh := [] }] "k" []
    (by
      intro o ho
      simp only [List.mem_cons, List.mem_singleton, List.not_mem_nil, or_false] at ho
      rcases ho with rfl | rfl | rfl
      · exact IsOpt.hasher lengthSumHasher
      · exact IsOpt.replicas 3
      · exact IsOpt.remote { EventsCh := [] })
    rfl

/-- C17: in every ring reachable from `NewConsistent` by `Add` and `Remove` calls, with
or without error and for every replica count, the position list is sorted in
non-decreasing order. -/
theorem C17_hashes_sorted (c : Consistent) (hr : Reachable c) :
    c.hashes.Sorted (· ≤ ·) :=
  hr.inv.sorted

/-- Witness of C17: the example ring where `a` and `b` collide, with the list 10, 10, 30. -/
theorem C17_hashes_sorted_witness : exampleABC.hashes.Sorted (· ≤ ·) :=
  C17_hashes_sorted exampleABC (addAll_reachable _ _ exampleEmpty_reachable)

/-! ## The position list and the keys of the mapping -/

/-- After a `Remove` that returns no error the position list has no repetition. -/
theorem Remove_hashes_nodup (cap : Nat) (c c2 : Consistent) (srv : String)
    (h : c.Remove cap srv = .ok (c2, none)) : c2.hashes.Nodup := by
  by_cases hm : srv ∈ c.members
  · by_cases h0 : c.nReplicas = 0
    · rw [Remove_zero cap c srv hm h0] at h
      cases h
    · obtain ⟨ks, hks, he⟩ := Remove_of_mem cap c srv hm h0
      rw [he] at h
      injection h with h1
      have h2 := (Prod.mk.inj h1).1
      rw [← h2]
      have hnd := ((c.positions srv).foldl (fun m p => m.erase p) c.ring).keys.nodup
      rw [← hks] at hnd
      exact sortSlice_nodup ks (Multiset.coe_nodup.mp hnd)
  · rw [Remove_of_not_mem cap c srv hm] at h
    injection h with h1
    cases (Prod.mk.inj h1).2

theorem length_eq_card_keys_iff (c : Consistent) (hmirror : ∀ p, p ∈ c.hashes ↔ p ∈ c.ring) :
    c.hashes.toFinset = c.ring.keys ∧ c.ring.keys.card ≤ c.hashes.length ∧
    (c.hashes.length = c.ring.keys.card ↔ c.hashes.Nodup) := by
  have hset : c.hashes.toFinset = c.ring.keys := by
    ext p
    rw [List.mem_toFinset, Finmap.mem_keys]
    exact hmirror p
  refine ⟨hset, ?_, ?_⟩
  · rw [← hset]
    exact List.toFinset_card_le _
  · rw [← hset]
    constructor
    · intro h
      exact Multiset.coe_nodup.mp
        ((Multiset.toFinset_card_eq_card_iff_nodup (m := (c.hashes : Multiset Hash))).mp h.symm)
    · intro h
      exact (List.toFinset_card_of_nodup h).symm

/-- Counterexample to C18 as stated: with one replica, after `Add("a")`, `Add("b")`,
`Add("c")` where `a` and `b` collide at position 10, the position list is 10, 10, 30 and
the mapping has the two keys 10 and 30. -/
theorem C18_counterexample :
    Reachable exampleABC ∧ 1 ≤ exampleABC.nReplicas ∧ exampleABC.hashes = [10, 10, 30] ∧
    exampleABC.ring.keys = {10, 30} ∧ ¬ exampleABC.hashes.Nodup ∧
    exampleABC.hashes.length ≠ exampleABC.ring.keys.card :=
  ⟨addAll_reachable _ _ exampleEmpty_reachable, by decide, by decide, by decide, by decide,
    by decide⟩

/-- C18 (amended): in every ring reachable from `NewConsistent` by `Add` and `Remove`
calls, the position list has the same set of elements as the mapping has keys and at
least as many elements as the mapping has keys; the two numbers are equal exactly when
the list holds no position twice, and this is the case after every `Remove` that returns
no error. -/
theorem C18_hashes_mirror_keys (c : Consistent) (hr : Reachable c) :
    (∀ p, p ∈ c.hashes ↔ p ∈ c.ring.keys) ∧ c.hashes.toFinset = c.ring.keys ∧
    c.ring.keys.card ≤ c.hashes.length ∧
    (c.hashes.length = c.ring.keys.card ↔ c.hashes.Nodup) ∧
    (∀ cap srv c2, c.Remove cap srv = .ok (c2, none) →
      c2.hashes.Nodup ∧ c2.hashes.length = c2.ring.keys.card) := by
  obtain ⟨h1, h2, h3⟩ := length_eq_card_keys_iff c hr.inv.mirror
  refine ⟨fun p => by rw [Finmap.mem_keys]; exact hr.inv.mirror p, h1, h2, h3, ?_⟩
  intro cap srv c2 hrem
  have hnd := Remove_hashes_nodup cap c c2 srv hrem
  have hi2 := Inv_Remove cap c srv _ hr.inv hrem
  exact ⟨hnd, (length_eq_card_keys_iff c2 hi2.mirror).2.2.mpr hnd⟩

/-- Witness of C18 (amended): the example ring where `a` and `b` collide. -/
theorem C18_hashes_mirror_keys_witness :
    (∀ p, p ∈ exampleABC.hashes ↔ p ∈ exampleABC.ring.keys) ∧
    exampleABC.hashes.toFinset = exampleABC.ring.keys ∧
    exampleABC.ring.keys.card ≤ exampleABC.hashes.length ∧
    (exampleABC.hashes.length = exampleABC.ring.keys.card ↔ exampleABC.hashes.Nodup) ∧
    (∀ cap srv c2, exampleABC.Remove cap srv = .ok (c2, none) →
      c2.hashes.Nodup ∧ c2.hashes.length = c2.ring.keys.card) :=
  C18_hashes_mirror_keys exampleABC (addAll_reachable _ _ exampleEmpty_reachable)

/-! ## The membership event consumer -/

/-- The capacity of the slice does not influence what `Remove` returns. -/
theorem Remove_cap_irrelevant (cap1 cap2 : Nat) (c : Consistent) (srv : String) :
    c.Remove cap1 srv = c.Remove cap2 srv := by
  by_cases hm : srv ∈ c.members
  · by_cases h0 : c.nReplicas = 0
    · rw [Remove_zero cap1 c srv hm h0, Remove_zero cap2 c srv hm h0]
    · obtain ⟨ks1, hks1, he1⟩ := Remove_of_mem cap1 c srv hm h0
      obtain ⟨ks2, hks2, he2⟩ := Remove_of_mem cap2 c srv hm h0
      have hperm : ks1.Perm ks2 := Quotient.exact (hks1.trans hks2.symm)
      have hsort : sortSlice ks1 = sortSlice ks2 :=
        List.eq_of_perm_of_sorted
          (((sortSlice_perm ks1).trans hperm).trans (sortSlice_perm ks2).symm)
          (sortSlice_sorted ks1) (sortSlice_sorted ks2)
      rw [he1, he2, hsort]
  · rw [Remove_of_not_mem cap1 c srv hm, Remove_of_not_mem cap2 c srv hm]

theorem handleRemote_append (cap : Nat) (pre post : List remote.Event) (c : Consistent) :
    handleRemote cap c (pre ++ post) =
      match handleRemote cap c pre with
      | .error f => .error f
      | .ok c1 => handleRemote cap c1 post := by
  induction pre generalizing c with
  | nil => rfl
  | cons e pre ih =>
    simp only [List.cons_append, handleRemote]
    cases handleEvent cap c e with
    | error f => rfl
    | ok c1 => exact ih c1

/-- An event that changes nothing: a join of a member, a leave of a server that is not a
member, or an event of another kind. -/
theorem handleEvent_dropped (cap : Nat) (c : Consistent) (e : remote.Event)
    (h : (e.Typ = remote.EventJoin ∧ e.Name ∈ c.members) ∨
      (e.Typ = remote.EventLeave ∧ e.Name ∉ c.members) ∨
      (e.Typ ≠ remote.EventJoin ∧ e.Typ ≠ remote.EventLeave)) :
    handleEvent cap c e = .ok c := by
  rcases h with ⟨h1, h2⟩ | ⟨h1, h2⟩ | ⟨h1, h2⟩
  · simp [handleEvent, h1, Add_of_mem c e.Name h2]
  · have hne : ¬ remote.EventLeave = remote.EventJoin := by decide
    simp [handleEvent, hne, h1, Remove_of_not_mem cap c e.Name h2]
  · simp [handleEvent, h1, h2]

/-- C19: the event consumer as a step function over the delivered events. The consumer
handles the first event and then the rest on the ring that the first event left: a join
event by `Add(name)`, a leave event by `Remove(name)`, the returned error being dropped
in both cases, and an event of another kind by nothing; with no event left the ring is
the result. A join of a member, a leave of a server that is not a member and an event
of any other kind leave the ring as it was, and a sequence of events with such an event
in it is handled exactly as the sequence without it. -/
theorem C19_bad_event_is_dropped (cap : Nat) (c : Consistent) (e : remote.Event)
    (eventsCh : List remote.Event) :
    (e.Typ = remote.EventJoin → handleEvent cap c e = .ok (c.Add e.Name).1) ∧
    (e.Typ = remote.EventLeave →
      handleEvent cap c e =
        match c.Remove cap e.Name with
        | .error f => .error f
        | .ok r => .ok r.1) ∧
    (((e.Typ = remote.EventJoin ∧ e.Name ∈ c.members) ∨
      (e.Typ = remote.EventLeave ∧ e.Name ∉ c.members) ∨
      (e.Typ ≠ remote.EventJoin ∧ e.Typ ≠ remote.EventLeave)) →
      handleEvent cap c e = .ok c ∧
      ∀ c0 pre post, handleRemote cap c0 pre = .ok c →
        handleRemote cap c0 (pre ++ e :: post) = handleRemote cap c0 (pre ++ post)) ∧
    handleRemote cap c [] = .ok c ∧
    (handleRemote cap c (e :: eventsCh) =
      match handleEvent cap c e with
      | .error f => .error f
      | .ok c1 => handleRemote cap c1 eventsCh) ∧
    (e.Typ = remote.EventJoin →
      handleRemote cap c (e :: eventsCh) = handleRemote cap (c.Add e.Name).1 eventsCh) ∧
    (e.Typ = remote.EventLeave →
      handleRemote cap c (e :: eventsCh) =
        match c.Remove cap e.Name with
        | .error f => .error f
        | .ok r => handleRemote cap r.1 eventsCh) ∧
    (e.Typ ≠ remote.EventJoin → e.Typ ≠ remote.EventLeave →
      handleRemote cap c (e :: eventsCh) = handleRemote cap c eventsCh) ∧
    (∀ c0 pre, handleRemote cap c0 pre = .ok c →
      handleRemote cap c0 (pre ++ e :: eventsCh) = handleRemote cap c (e :: eventsCh)) := by
  have hne : ¬ remote.EventLeave = remote.EventJoin := by decide
  refine ⟨?_, ?_, ?_, rfl, rfl, ?_, ?_, ?_, ?_⟩
  · intro h
    simp [handleEvent, h]
  · intro h
    simp [handleEvent, hne, h]
  · intro h
    have hd := handleEvent_dropped cap c e h
    refine ⟨hd, ?_⟩
    intro c0 pre post hpre
    rw [handleRemote_append, handleRemote_append, hpre]
    simp only [handleRemote, hd]
  · intro h
    simp [handleRemote, handleEvent, h]
  · intro h
    simp only [handleRemote, handleEvent, h, hne, if_false, if_true]
    cases c.Remove cap e.Name <;> rfl
  · intro h1 h2
    simp [handleRemote, handleEvent, h1, h2]
  · intro c0 pre hpre
    rw [handleRemote_append, hpre]

/-- Witness of C19: on the example ring with `a`, the consumer receives a second join of
`a`, a join of `c`, an event of kind 7 and a leave of `a`. The join of `a` is dropped,
the join of `c` is handled by `Add("c")`, the leave of `a` by `Remove("a")`, and the ring
that is left holds `c` alone. -/
theorem C19_bad_event_is_dropped_witness :
    handleEvent 0 exampleA { Typ := remote.EventJoin, Name := "a", Addr := [], Port := 0 }
      = .ok exampleA ∧
    handleRemote 0 exampleA
      ([] ++ { Typ := remote.EventJoin, Name := "a", Addr := [], Port := 0 } ::
        [{ Typ := remote.EventJoin, Name := "c", Addr := [], Port := 0 },
          { Typ := remote.EventLeave, Name := "a", Addr := [], Port := 0 }]) =
      handleRemote 0 exampleA
        ([] ++ [{ Typ := remote.EventJoin, Name := "c", Addr := [], Port := 0 },
          { Typ := remote.EventLeave, Name := "a", Addr := [], Port := 0 }]) ∧
    handleRemote 0 exampleA
      ({ Typ := remote.EventJoin, Name := "c", Addr := [], Port := 0 } ::
        [{ Typ := 7, Name := "x", Addr := [], Port := 0 },
          { Typ := remote.EventLeave, Name := "a", Addr := [], Port := 0 }]) =
      handleRemote 0 (exampleA.Add "c").1
        [{ Typ := 7, Name := "x", Addr := [], Port := 0 },
          { Typ := remote.EventLeave, Name := "a", Addr := [], Port := 0 }] ∧
    handleRemote 0 (exampleA.Add "c").1
      ({ Typ := 7, Name := "x", Addr := [], Port := 0 } ::
        [{ Typ := remote.EventLeave, Name := "a", Addr := [], Port := 0 }]) =
      handleRemote 0 (exampleA.Add "c").1
        [{ Typ := remote.EventLeave, Name := "a", Addr := [], Port := 0 }] ∧
    handleRemote 0 (exampleA.Add "c").1
      ({ Typ := remote.EventLeave, Name := "a", Addr := [], Port := 0 } :: []) =
      (match (exampleA.Add "c").1.Remove 0 "a" with
        | .error f => .error f
        | .ok r => handleRemote 0 r.1 []) ∧
    handleRemote 0 exampleA
      [{ Typ := remote.EventJoin, Name := "a", Addr := [], Port := 0 },
        { Typ := remote.EventJoin, Name := "c", Addr := [], Port := 0 },
        { Typ := 7, Name := "x", Addr := [], Port := 0 },
        { Typ := remote.EventLeave, Name := "a", Addr := [], Port := 0 }] =
      .ok (afterRemove 0 (exampleA.Add "c").1 "a") ∧
    (afterRemove 0 (exampleA.Add "c").1 "a").members = {"c"} ∧
    (afterRemove 0 (exampleA.Add "c").1 "a").ring.keys = {30} ∧
    (afterRemove 0 (exampleA.Add "c").1 "a").hashes = [30] :=
  ⟨((C19_bad_event_is_dropped 0 exampleA
      { Typ := remote.EventJoin, Name := "a", Addr := [], Port := 0 } []).2.2.1
      (Or.inl ⟨rfl, by decide⟩)).1,
    ((C19_bad_event_is_dropped 0 exampleA
      { Typ := remote.EventJoin, Name := "a", Addr := [], Port := 0 } []).2.2.1
      (Or.inl ⟨rfl, by decide⟩)).2 exampleA [] _ rfl,
    (C19_bad_event_is_dropped 0 exampleA
      { Typ := remote.EventJoin, Name := "c", Addr := [], Port := 0 }
      [{ Typ := 7, Name := "x", Addr := [], Port := 0 },
        { Typ := remote.EventLeave, Name := "a", Addr := [], Port := 0 }]).2.2.2.2.2.1 rfl,
    (C19_bad_event_is_dropped 0 (exampleA.Add "c").1
      { Typ := 7, Name := "x", Addr := [], Port := 0 }
      [{ Typ := remote.EventLeave, Name := "a", Addr := [], Port := 0 }]).2.2.2.2.2.2.2.1
      (by decide) (by decide),
    (C19_bad_event_is_dropped 0 (exampleA.Add "c").1
      { Typ := remote.EventLeave, Name := "a", Addr := [], Port := 0 } []).2.2.2.2.2.2.1 rfl,
    rfl, by decide, by decide, by decide⟩

/-! ## Remapping after `Remove` -/

theorem IsSuccessor.congr {hs hs2 : List Hash} {h p : Hash} (hmem : ∀ q, q ∈ hs ↔ q ∈ hs2)
    (hp : IsSuccessor hs h p) : IsSuccessor hs2 h p := by
  obtain ⟨hpm, hp⟩ := hp
  refine ⟨(hmem p).mp hpm, ?_⟩
  rcases hp with ⟨hp1, hp2⟩ | ⟨hp1, hp2⟩
  · exact Or.inl ⟨hp1, fun q hq hlt => hp2 q ((hmem q).mpr hq) hlt⟩
  · exact Or.inr ⟨fun q hq => hp1 q ((hmem q).mpr hq), fun q hq => hp2 q ((hmem q).mpr hq)⟩

theorem afterRemove_reachable (cap : Nat) (c : Consistent) (srv : String)
    (r : Consistent × Option Error) (h : Reachable c) (hr : c.Remove cap srv = .ok r) :
    Reachable (afterRemove cap c srv) := by
  simp only [afterRemove, hr]
  exact Reachable.remove c cap srv r h hr

/-- When the positions of the members are pairwise distinct, a key of the mapping is a
position of the member `s` exactly when the mapping assigns it to `s`. -/
theorem mem_positions_iff_owner (c : Consistent) (N : Nat) (hi : Inv c)
    (hN : c.nReplicas = N) (s : String) (hs : s ∈ c.members)
    (hdist : ∀ m1 ∈ c.members, ∀ m2 ∈ c.members, ∀ i1 i2 : Nat, i1 < N → i2 < N →
      c.hasher (c.srvKey m1 i1) = c.hasher (c.srvKey m2 i2) → m1 = m2 ∧ i1 = i2)
    (p : Hash) (u : String) (hu : c.ring.lookup p = some u) :
    p ∈ c.positions s ↔ u = s := by
  obtain ⟨hum, hup⟩ := hi.owner p u hu
  constructor
  · intro hps
    obtain ⟨i, hi1, hi2⟩ := (mem_positions_nat c s N hN p).mp hps
    obtain ⟨j, hj1, hj2⟩ := (mem_positions_nat c u N hN p).mp hup
    exact (hdist u hum s hs j i hj1 hi1 (hj2 ▸ hi2)).1
  · intro hus
    exact hus ▸ hup

/-- After `Remove(s)` a key is resolved through the clockwise successor of its hash among
the positions of the old list that are not positions of `s`, as long as there is one. -/
theorem Get_after_Remove (cap : Nat) (c : Consistent) (s k : String) (hi : Inv c)
    (hs : s ∈ c.members) (h2 : 2 ≤ c.members.card) (p0 : Hash) (hp0 : p0 ∈ c.ring)
    (hp0n : p0 ∉ c.positions s) :
    ∃ c2 q, c.Remove cap s = .ok (c2, none) ∧ q ∈ c.ring ∧ q ∉ c.positions s ∧
      IsSuccessor (c.hashes.filter (fun q => decide (q ∉ c.positions s))) (c.hasher k) q ∧
      c2.Get k = .ok (c2, ringAt c.ring q, none) := by
  have hh : c.hashes ≠ [] := List.ne_nil_of_mem ((hi.mirror p0).mpr hp0)
  have hN : c.nReplicas ≠ 0 := fun h0 => hh (hi.replicas (le_of_eq h0))
  obtain ⟨ks, hks, he⟩ := Remove_of_mem cap c s hs hN
  have hmem : ∀ q, q ∈ sortSlice ks ↔ q ∉ c.positions s ∧ q ∈ c.ring := by
    intro q
    rw [mem_sortSlice, ← mem_foldl_erase, ← Finmap.mem_keys, ← Finset.mem_val, ← hks]
    rfl
  have hi2 := Inv_Remove cap c s _ hi he
  have hm2 : c.members.erase s ≠ ∅ := by
    intro h0
    have := Finset.card_erase_of_mem hs
    rw [h0] at this
    simp at this
    omega
  have hp2 : p0 ∈ sortSlice ks := (hmem p0).mpr ⟨hp0n, hp0⟩
  obtain ⟨q, hsucc, hg⟩ := Get_of_sorted _ k hi2.sorted hm2 (List.ne_nil_of_mem hp2)
  have hq := (hmem q).mp hsucc.1
  refine ⟨_, q, he, hq.2, hq.1, ?_, ?_⟩
  · refine IsSuccessor.congr ?_ hsucc
    intro x
    simp only [List.mem_filter, decide_eq_true_eq]
    rw [hmem x, hi.mirror x]
    tauto
  · rw [hg]
    simp [ringAt, lookup_foldl_erase, hq.1]

/-- Counterexample to C20 as stated: with one replica, after `Add("a")`, `Add("b")`,
`Remove("b")`, `Add("c")` the members are `a` and `c` with the distinct positions 10 and
30, but position 10 left the mapping with `b`. The key `k` is owned by `c`; after
`Remove("c")` no position is left and `Get("k")` does not return a server: it faults. -/
theorem C20_counterexample :
    Reachable exampleGap ∧ exampleGap.nReplicas = 1 ∧ 2 ≤ exampleGap.members.card ∧
    "c" ∈ exampleGap.members ∧
    (∀ m1 ∈ exampleGap.members, ∀ m2 ∈ exampleGap.members,
      ∀ i1 : Nat, i1 < 1 → ∀ i2 : Nat, i2 < 1 →
        exampleGap.hasher (exampleGap.srvKey m1 i1) =
          exampleGap.hasher (exampleGap.srvKey m2 i2) → m1 = m2 ∧ i1 = i2) ∧
    exampleGap.Get "k" = .ok (exampleGap, "c", none) ∧
    ∃ c2, exampleGap.Remove 0 "c" = .ok (c2, none) ∧ c2.Get "k" = .error .indexOutOfRange :=
  ⟨Reachable.add _ _
      (afterRemove_reachable 0 _ "b" _ (addAll_reachable _ _ exampleEmpty_reachable) rfl),
    rfl, by decide, by decide, by decide, rfl, _, rfl, rfl⟩

/-- C20 (amended): in a reachable ring with replica count `N` and at least two members, in which the positions `hash(m + decimal(i))` are pairwise distinct over the
pairs (member `m`, index `i < N`), let `s` be a member and `k` a key. If `Get(k)` returns
a server `t` different from `s`, then `Remove(s)` succeeds and `Get(k)` returns `t`
afterwards. If `Get(k)` returns `s` and the mapping assigns some position to a server
other than `s`, then `Remove(s)` succeeds and `Get(k)` afterwards returns the owner of
the clockwise successor of `hash(k)` among the positions that do not belong to `s`. -/
theorem C20_bounded_remapping (c : Consistent) (cap : Nat) (s k : String) (N : Nat)
    (hr : Reachable c) (hN : c.nReplicas = N) (h2 : 2 ≤ c.members.card)
    (hs : s ∈ c.members)
    (hdist : ∀ m1 ∈ c.members, ∀ m2 ∈ c.members, ∀ i1 i2 : Nat, i1 < N → i2 < N →
      c.hasher (c.srvKey m1 i1) = c.hasher (c.srvKey m2 i2) → m1 = m2 ∧ i1 = i2) :
    (∀ t, c.Get k = .ok (c, t, none) → t ≠ s →
      ∃ c2, c.Remove cap s = .ok (c2, none) ∧ c2.Get k = .ok (c2, t, none)) ∧
    (c.Get k = .ok (c, s, none) → (∃ p0 u0, c.ring.lookup p0 = some u0 ∧ u0 ≠ s) →
      ∃ c2 q u, c.Remove cap s = .ok (c2, none) ∧ c.ring.lookup q = some u ∧ u ≠ s ∧
        IsSuccessor (c.hashes.filter (fun x => decide (c.ring.lookup x ≠ some s)))
          (c.hasher k) q ∧
        c2.Get k = .ok (c2, u, none)) := by
  have hi := hr.inv
  have hown := mem_positions_iff_owner c N hi hN s hs hdist
  constructor
  · intro t hget hts
    have hm : c.members ≠ ∅ := by
      intro h0
      rw [h0] at h2
      simp at h2
    have hh : c.hashes ≠ [] := by
      intro h0
      rw [Get_of_no_hashes c k hm h0] at hget
      cases hget
    obtain ⟨p, hp, hg⟩ := Get_of_sorted c k hi.sorted hm hh
    rw [hg] at hget
    have htp : ringAt c.ring p = t := by
      injection hget with e1
      exact (Prod.mk.inj (Prod.mk.inj e1).2).1
    have hpr : p ∈ c.ring := (hi.mirror p).mp hp.1
    obtain ⟨u, hu⟩ := Finmap.mem_iff.mp hpr
    have hut : u = t := by
      rw [← htp]
      simp [ringAt, hu]
    have hpn : p ∉ c.positions s := fun hps => hts (hut ▸ (hown p u hu).mp hps)
    obtain ⟨c2, q, he, _, _, hsucc, hg2⟩ := Get_after_Remove cap c s k hi hs h2 p hpr hpn
    have hpf : p ∈ c.hashes.filter (fun q => decide (q ∉ c.positions s)) := by
      simp only [List.mem_filter, decide_eq_true_eq]
      exact ⟨hp.1, hpn⟩
    have hqp : q = p :=
      IsSuccessor.unique hsucc
        (IsSuccessor.of_subset (fun x hx => (List.mem_filter.mp hx).1) hpf hp)
    refine ⟨c2, he, ?_⟩
    rw [hg2, hqp, htp]
  · rintro _ ⟨p0, u0, hl0, hne0⟩
    have hp0 : p0 ∈ c.ring := Finmap.mem_iff.mpr ⟨u0, hl0⟩
    have hp0n : p0 ∉ c.positions s := fun hps => hne0 ((hown p0 u0 hl0).mp hps)
    obtain ⟨c2, q, he, hqr, hqn, hsucc, hg2⟩ :=
      Get_after_Remove cap c s k hi hs h2 p0 hp0 hp0n
    obtain ⟨u, hu⟩ := Finmap.mem_iff.mp hqr
    have hus : u ≠ s := fun h => hqn ((hown q u hu).mpr h)
    refine ⟨c2, q, u, he, hu, hus, ?_, ?_⟩
    · refine IsSuccessor.congr ?_ hsucc
      intro x
      simp only [List.mem_filter, decide_eq_true_eq]
      constructor
      · rintro ⟨hx, hxn⟩
        obtain ⟨v, hv⟩ := Finmap.mem_iff.mp ((hi.mirror x).mp hx)
        refine ⟨hx, ?_⟩
        rw [hv]
        intro hvs
        exact hxn ((hown x v hv).mpr (Option.some.inj hvs))
      · rintro ⟨hx, hxn⟩
        obtain ⟨v, hv⟩ := Finmap.mem_iff.mp ((hi.mirror x).mp hx)
        refine ⟨hx, fun hps => hxn ?_⟩
        rw [hv, (hown x v hv).mp hps]
    · rw [hg2]
      simp [ringAt, hu]

/-- Witness of C20 (amended): the example ring with `a` at 10 and `c` at 30, from which
`c` is removed. -/
theorem C20_bounded_remapping_witness :
    (∀ t, exampleAC.Get "k" = .ok (exampleAC, t, none) → t ≠ "c" →
      ∃ c2, exampleAC.Remove 0 "c" = .ok (c2, none) ∧ c2.Get "k" = .ok (c2, t, none)) ∧
    (exampleAC.Get "k" = .ok (exampleAC, "c", none) →
      (∃ p0 u0, exampleAC.ring.lookup p0 = some u0 ∧ u0 ≠ "c") →
      ∃ c2 q u, exampleAC.Remove 0 "c" = .ok (c2, none) ∧ exampleAC.ring.lookup q = some u ∧
        u ≠ "c" ∧
        IsSuccessor (exampleAC.hashes.filter
          (fun x => decide (exampleAC.ring.lookup x ≠ some "c"))) (exampleAC.hasher "k") q ∧
        c2.Get "k" = .ok (c2, u, none)) :=
  C20_bounded_remapping exampleAC 0 "c" "k" 1 (addAll_reachable _ _ exampleEmpty_reachable)
    rfl (by decide) (by decide)
    (by
      intro m1 h1 m2 h2 i1 i2 hi1 hi2
      have e1 : i1 = 0 := by omega
      have e2 : i2 = 0 := by omega
      subst e1 e2
      have hmem : exampleAC.members = {"a", "c"} := by decide
      rw [hmem] at h1 h2
      simp only [Finset.mem_insert, Finset.mem_singleton] at h1 h2
      rcases h1 with rfl | rfl <;> rcases h2 with rfl | rfl <;> decide)

/-! ## Members and owners -/

/-- A `Get` that returns without error returns a server to which the mapping assigns a
position, when the invariants of the reachable rings hold. -/
theorem Get_returns_owner (c c2 : Consistent) (key t : String) (hi : Inv c)
    (hget : c.Get key = .ok (c2, t, none)) : ∃ p, c.ring.lookup p = some t := by
  have hm : c.members ≠ ∅ := by
    intro h0
    rw [Get_of_empty c key h0] at hget
    injection hget with e1
    cases (Prod.mk.inj (Prod.mk.inj e1).2).2
  have hh : c.hashes ≠ [] := by
    intro h0
    rw [Get_of_no_hashes c key hm h0] at hget
    cases hget
  obtain ⟨p, hp, hg⟩ := Get_of_sorted c key hi.sorted hm hh
  rw [hg] at hget
  have htp : ringAt c.ring p = t := by
    injection hget with e1
    exact (Prod.mk.inj (Prod.mk.inj e1).2).1
  obtain ⟨u, hu⟩ := Finmap.mem_iff.mp ((hi.mirror p).mp hp.1)
  refine ⟨p, ?_⟩
  rw [hu, ← htp]
  simp [ringAt, hu]

theorem Add_members_subset (c : Consistent) (srv x : String) (hx : x ∈ (c.Add srv).1.members) :
    x = srv ∨ x ∈ c.members := by
  by_cases hm : srv ∈ c.members
  · rw [Add_of_mem c srv hm] at hx
    exact Or.inr hx
  · rw [Add_of_not_mem c srv hm] at hx
    exact Finset.mem_insert.mp hx

theorem Remove_members_subset (cap : Nat) (c : Consistent) (srv x : String)
    (r : Consistent × Option Error) (hr : c.Remove cap srv = .ok r) (hx : x ∈ r.1.members) :
    x ∈ c.members := by
  by_cases hm : srv ∈ c.members
  · by_cases h0 : c.nReplicas = 0
    · rw [Remove_zero cap c srv hm h0] at hr
      cases hr
    · obtain ⟨ks, _, he⟩ := Remove_of_mem cap c srv hm h0
      rw [he] at hr
      cases hr
      exact (Finset.mem_erase.mp hx).2
  · rw [Remove_of_not_mem cap c srv hm] at hr
    cases hr
    exact hx

/-- A `Remove(s)` that returns no error leaves a ring without the member `s`. -/
theorem Remove_not_mem_after (cap : Nat) (c c2 : Consistent) (s : String)
    (h : c.Remove cap s = .ok (c2, none)) : s ∉ c2.members := by
  by_cases hm : s ∈ c.members
  · by_cases h0 : c.nReplicas = 0
    · rw [Remove_zero cap c s hm h0] at h
      cases h
    · obtain ⟨ks, _, he⟩ := Remove_of_mem cap c s hm h0
      rw [he] at h
      injection h with h1
      rw [← (Prod.mk.inj h1).1]
      exact Finset.not_mem_erase s c.members
  · rw [Remove_of_not_mem cap c s hm] at h
    injection h with h1
    cases (Prod.mk.inj h1).2

/-- Calls other than `Add(s)` keep the invariants and do not make `s` a member. -/
theorem ReachableWithoutAdd.keeps_out {s : String} {c d : Consistent}
    (h : ReachableWithoutAdd s c d) (hi : Inv c) (hs : s ∉ c.members) :
    Inv d ∧ s ∉ d.members := by
  induction h with
  | refl => exact ⟨hi, hs⟩
  | add d srv _ hne ih =>
    refine ⟨Inv_Add d srv ih.1, fun hx => ?_⟩
    rcases Add_members_subset d srv s hx with h1 | h1
    · exact hne h1.symm
    · exact ih.2 h1
  | remove d cap srv r _ hr ih =>
    exact ⟨Inv_Remove cap d srv r ih.1 hr,
      fun hx => ih.2 (Remove_members_subset cap d srv s r hr hx)⟩

/-- C21: in every ring reachable from `NewConsistent` by `Add` and `Remove` calls, every
server to which the mapping assigns a position is a current member; a `Get(key)` that
returns without error returns a current member; and after a `Remove(s)` that returned
no error, whatever `Add` and `Remove` calls follow, as long as none of them is `Add(s)`
no `Get` returns `s`. -/
theorem C21_owners_are_members (c : Consistent) (hr : Reachable c) :
    (∀ p srv, c.ring.lookup p = some srv → srv ∈ c.members) ∧
    (∀ key c2 t, c.Get key = .ok (c2, t, none) → t ∈ c.members) ∧
    (∀ cap s c1 d key d2 t, c.Remove cap s = .ok (c1, none) → ReachableWithoutAdd s c1 d →
      d.Get key = .ok (d2, t, none) → t ≠ s) := by
  have hi := hr.inv
  refine ⟨fun p srv h => (hi.owner p srv h).1, ?_, ?_⟩
  · intro key c2 t hget
    obtain ⟨p, hp⟩ := Get_returns_owner c c2 key t hi hget
    exact (hi.owner p t hp).1
  · intro cap s c1 d key d2 t hrem hsteps hget hts
    have hi1 := Inv_Remove cap c s _ hi hrem
    obtain ⟨hid, hsd⟩ := hsteps.keeps_out hi1 (Remove_not_mem_after cap c c1 s hrem)
    obtain ⟨p, hp⟩ := Get_returns_owner d d2 key t hid hget
    exact hsd (hts ▸ (hid.owner p t hp).1)

/-- Witness of C21: the example ring where `a` and `b` collide. -/
theorem C21_owners_are_members_witness :
    (∀ p srv, exampleABC.ring.lookup p = some srv → srv ∈ exampleABC.members) ∧
    (∀ key c2 t, exampleABC.Get key = .ok (c2, t, none) → t ∈ exampleABC.members) ∧
    (∀ cap s c1 d key d2 t, exampleABC.Remove cap s = .ok (c1, none) →
      ReachableWithoutAdd s c1 d → d.Get key = .ok (d2, t, none) → t ≠ s) :=
  C21_owners_are_members exampleABC (addAll_reachable _ _ exampleEmpty_reachable)

/-- C22: in a ring with replica count `N >= 1`, let `s` be a server that is not a member
and none of whose positions `hash(s + decimal(i))`, `i < N`, is a key of the mapping.
Then `Add(s)` and the following `Remove(s)` both return no error, and the ring they
leave has the member set and the mapping of the ring before the two calls, and a
position list that is strictly ascending and holds exactly the keys of that mapping. -/
theorem C22_add_remove_round_trip (c : Consistent) (cap : Nat) (s : String) (N : Nat)
    (hN : c.nReplicas = N) (h1 : 1 ≤ N) (hs : s ∉ c.members)
    (hfresh : ∀ i : Nat, i < N → c.hasher (c.srvKey s i) ∉ c.ring) :
    ∃ c1 c2, c.Add s = (c1, none) ∧ c1.Remove cap s = .ok (c2, none) ∧
      c2.members = c.members ∧ c2.ring = c.ring ∧ c2.hashes.Sorted (· < ·) ∧
      (∀ p, p ∈ c2.hashes ↔ p ∈ c.ring.keys) ∧ c2.hashes.length = c.ring.keys.card := by
  have h0 : c.nReplicas ≠ 0 := by omega
  have hs1 : s ∈ (c.Add s).1.members := by
    rw [Add_of_not_mem c s hs]
    exact Finset.mem_insert_self _ _
  have h01 : (c.Add s).1.nReplicas ≠ 0 := by
    rw [Add_of_not_mem c s hs]
    exact h0
  obtain ⟨ks, hks, he⟩ := Remove_of_mem cap (c.Add s).1 s hs1 h01
  have hring : ((c.Add s).1.positions s).foldl (fun m p => m.erase p) (c.Add s).1.ring
      = c.ring := by
    rw [Add_of_not_mem c s hs]
    apply Finmap.ext_lookup
    intro p
    have hpos : ({ c with
        members := insert s c.members,
        hashes := sortSlice (c.hashes ++ c.positions s),
        ring := (c.positions s).foldl (fun m p => m.insert p s) c.ring } :
          Consistent).positions s = c.positions s := rfl
    rw [hpos, lookup_foldl_erase]
    simp only [lookup_foldl_insert]
    by_cases hp : p ∈ c.positions s
    · obtain ⟨i, hi1, hi2⟩ := (mem_positions_nat c s N hN p).mp hp
      simp only [hp, if_true]
      exact (Finmap.lookup_eq_none.mpr (hi2 ▸ hfresh i hi1)).symm
    · simp only [hp, if_false]
  rw [hring] at hks he
  have hnd : ks.Nodup := by
    have h := c.ring.keys.nodup
    rw [← hks] at h
    exact Multiset.coe_nodup.mp h
  have hmem : ∀ p, p ∈ ks ↔ p ∈ c.ring.keys := by
    intro p
    rw [← Finset.mem_val, ← hks]
    rfl
  have hnd2 : (sortSlice ks).Nodup := sortSlice_nodup ks hnd
  refine ⟨(c.Add s).1, _, by rw [Add_of_not_mem c s hs], he, ?_, rfl,
    (sortSlice_sorted ks).lt_of_le hnd2, ?_, ?_⟩
  · rw [Add_of_not_mem c s hs]
    exact Finset.erase_insert hs
  · intro p
    simp only [mem_sortSlice, hmem]
  · simp only [length_sortSlice]
    rw [Finset.card_def, ← hks]
    rfl

/-- Witness of C22: `Add("c")` then `Remove("c")` on the example ring that holds `a`. -/
theorem C22_add_remove_round_trip_witness :
    ∃ c1 c2, exampleA.Add "c" = (c1, none) ∧ c1.Remove 0 "c" = .ok (c2, none) ∧
      c2.members = exampleA.members ∧ c2.ring = exampleA.ring ∧ c2.hashes.Sorted (· < ·) ∧
      (∀ p, p ∈ c2.hashes ↔ p ∈ exampleA.ring.keys) ∧
      c2.hashes.length = exampleA.ring.keys.card :=
  C22_add_remove_round_trip exampleA 0 "c" 1 rfl (by decide) (by decide)
    (by
      intro i hi
      have e1 : i = 0 := by omega
      subst e1
      decide)

end Consistent
